import Mathlib

/-!
Shallow embedding of the `git_analysis` repository (src/main.py and
src/create_filelist_csv.py) and proofs about the claims of its specification.

Modelling conventions:
* Relative paths are lists of path segments (`List String`); `joinPosix`
  renders them the way `Path.relative_to(...).as_posix()` does (the empty
  list renders as ".", as `Path(".")` does).
* `pathspec.PathSpec.from_lines("gitwildmatch", ...)` is an external
  library; a compiled pattern set is abstracted as a `Matcher : String → Bool`
  evaluated on the rendered relative path, exactly where `spec.match_file`
  is called in the source.
* Timestamps (`commit.author_date` / `commit.committer_date`) are abstracted
  as `Nat`.  The source renders them with `astimezone(JST).isoformat()` and
  sorts by the rendered string; for a fixed-offset timezone that rendering is
  strictly monotone, so sorting by the abstract timestamp is order-equivalent.
* Python's stable `list.sort` / `sorted` are modelled by `bSort`, a stable
  insertion sort (each element is inserted after all previously placed
  elements whose key is ≤ its own).
* The filesystem handed to `os.walk` / `Path.iterdir` is a value of
  `List FSNode` (the children of the analysis root); `iterdir` enumerates a
  directory's children in their list order, `sorted(...)` sorts them by name.
* The PyDriller `Repository(...).traverse_commits()` stream is a
  `List PyCommit`; a failure to open the repository or branch is modelled by
  an `Except.error` input to `generate_git_summary_json`.
-/

namespace GitAnalysis

/-! ### Stable insertion sort with a boolean comparator (models Python sorts) -/

def bInsert {α : Type} (le : α → α → Bool) (e : α) : List α → List α
  | [] => [e]
  | x :: xs => if le x e then x :: bInsert le e xs else e :: x :: xs

def bSort {α : Type} (le : α → α → Bool) (l : List α) : List α :=
  l.foldl (fun acc e => bInsert le e acc) []

/-- Code-point lexicographic order on character lists (Python's `str` order). -/
def lexLe : List Char → List Char → Bool
  | [], _ => true
  | _ :: _, [] => false
  | a :: as, b :: bs => if a = b then lexLe as bs else decide (a < b)

/-! ### Small string helpers mirrored from Python built-ins -/

/-- `str.strip()` on a string (drop whitespace on both ends). -/
def pyStrip (s : String) : String :=
  String.mk (((s.data.dropWhile Char.isWhitespace).reverse.dropWhile
    Char.isWhitespace).reverse)

/-- `Path(...).as_posix()` of a root-relative path given as segments.
`Path.relative_to` yields `Path(".")` for the root itself, whose
`as_posix()` is `"."`. -/
def joinPosix : List String → String
  | [] => "."
  | [s] => s
  | s :: rest => s ++ "/" ++ joinPosix rest

/-- `str.replace("/", "\\")`: for single-character arguments, a character map. -/
def winSep (s : String) : String :=
  String.mk (s.data.map (fun c => if c = '/' then '\\' else c))

/-! ### Language classification (src/main.py lines 15–34) -/

def LANGUAGE_MAP : List (String × String) :=
  [(".js", "JavaScript"), (".jsx", "JavaScript (React)"),
   (".ts", "TypeScript"), (".tsx", "TypeScript (React)"),
   (".html", "HTML"), (".css", "CSS"),
   (".md", "Markdown"), (".json", "JSON")]

/-- `dict.get(k, None)` on an association list with unique keys. -/
def mapGet : List (String × String) → String → Option String
  | [], _ => none
  | kv :: rest, k => if kv.1 = k then some kv.2 else mapGet rest k

/-- Split a character list at every `'/'`. -/
def splitSlash : List Char → List (List Char)
  | [] => [[]]
  | c :: cs =>
    match splitSlash cs with
    | [] => [[]]
    | seg :: rest => if c = '/' then [] :: seg :: rest else (c :: seg) :: rest

/-- `PurePath(filename).name`: the last path component, after dropping empty
and `"."` components produced by parsing. -/
def pyName (s : String) : String :=
  let segs := (splitSlash s.data).filter (fun seg => !(seg.isEmpty) && !(seg == ['.']))
  match segs.getLast? with
  | none => ""
  | some seg => String.mk seg

/-- Index of the last occurrence of `c` (Python `str.rfind`, as an `Option`). -/
def rfindIdx (c : Char) : List Char → Option Nat
  | [] => none
  | x :: xs =>
    match rfindIdx c xs with
    | some i => some (i + 1)
    | none => if x = c then some 0 else none

/-- `PurePath(filename).suffix`: `name[i:]` for the last dot position `i`
when `0 < i < len(name) - 1`, else the empty string. -/
def pySuffix (filename : String) : String :=
  let nd := (pyName filename).data
  match rfindIdx '.' nd with
  | none => ""
  | some i => if 0 < i ∧ i < nd.length - 1 then String.mk (nd.drop i) else ""

/-- src/main.py `get_language_from_extension`. -/
def get_language_from_extension (filename : String) : Option String :=
  mapGet LANGUAGE_MAP (pySuffix filename)

/-! ### Git history aggregation (src/main.py `extract_git_history`) -/

inductive PyModType where
  | ADD | COPY | RENAME | DELETE | MODIFY | UNKNOWN
deriving DecidableEq

/-- One PyDriller modification record (kind, prior path, new path). -/
structure PyMod where
  old_path : Option String
  new_path : Option String
  change_type : PyModType
deriving DecidableEq

/-- One PyDriller commit with its per-file modifications. -/
structure PyCommit where
  hash : String
  msg : String
  author_date : Nat
  committer_date : Nat
  modified_files : List PyMod
deriving DecidableEq

/-- The per-(commit, file) dictionary built at src/main.py lines 181–192. -/
structure ChangeEntry where
  commit_hash : String
  commit_message : String
  author_date : Nat
  commit_date : Nat
  change_type : PyModType
  file_created : Bool
  file_deleted : Bool
  file_rename : Bool
  old_file_name : Option String
  new_file_name : Option String
deriving DecidableEq

/-- Python truthiness of an optional string (`None` and `""` are falsy). -/
def pyTruthy : Option String → Bool
  | none => false
  | some s => s != ""

/-- Python's `new_path or old_path`. -/
def pyOrStr (a b : Option String) : Option String :=
  if pyTruthy a then a else b

/-- The key the aggregator files an entry under: `rel_path = new_path or
old_path`, and `if not rel_path: continue` (src/main.py lines 177–179). -/
def effectiveKey (m : PyMod) : Option String :=
  let r := pyOrStr m.new_path m.old_path
  if pyTruthy r then r else none

def mkEntry (c : PyCommit) (m : PyMod) : ChangeEntry :=
  { commit_hash := c.hash.take 14
    commit_message := pyStrip c.msg
    author_date := c.author_date
    commit_date := c.committer_date
    change_type := m.change_type
    file_created := m.change_type == PyModType.ADD
    file_deleted := m.change_type == PyModType.DELETE
    file_rename := m.change_type == PyModType.RENAME
    old_file_name := m.old_path
    new_file_name := m.new_path }

/-- `file_histories.setdefault(rel_path, []).append(entry)` on an insertion
ordered dictionary represented as an association list. -/
def histAppend (mp : List (String × List ChangeEntry)) (k : String)
    (e : ChangeEntry) : List (String × List ChangeEntry) :=
  match mp with
  | [] => [(k, [e])]
  | (k', l) :: rest =>
    if k' = k then (k', l ++ [e]) :: rest else (k', l) :: histAppend rest k e

def histLookup (mp : List (String × List ChangeEntry)) (k : String) :
    Option (List ChangeEntry) :=
  match mp with
  | [] => none
  | (k', l) :: rest => if k' = k then some l else histLookup rest k

/-- Processing of one modification of one commit. -/
def stepMod (c : PyCommit) (mp : List (String × List ChangeEntry)) (m : PyMod) :
    List (String × List ChangeEntry) :=
  match effectiveKey m with
  | none => mp
  | some k => histAppend mp k (mkEntry c m)

/-- The dictionary as built by the commit/modification loops, before sorting. -/
def extractRaw (commits : List PyCommit) : List (String × List ChangeEntry) :=
  commits.foldl (fun mp c => c.modified_files.foldl (stepMod c) mp) []

def dateLe (a b : ChangeEntry) : Bool := decide (a.author_date ≤ b.author_date)

/-- src/main.py `extract_git_history`: build the dictionary, then stably sort
every key's list by author date. -/
def extract_git_history (commits : List PyCommit) :
    List (String × List ChangeEntry) :=
  (extractRaw commits).map (fun kv => (kv.1, bSort dateLe kv.2))

/-- The (commit, modification) pairs in stream order. -/
def commitPairs : List PyCommit → List (PyCommit × PyMod)
  | [] => []
  | c :: rest => c.modified_files.map (fun m => (c, m)) ++ commitPairs rest

/-- The entries keyed under `p`, in commit-stream order. -/
def keyedEntries (p : String) (commits : List PyCommit) : List ChangeEntry :=
  ((commitPairs commits).filter (fun cm => effectiveKey cm.2 == some p)).map
    (fun cm => mkEntry cm.1 cm.2)

/-! ### Filesystem model and ignore decision (src/main.py) -/

inductive FSNode where
  | file (name : String)
  | dir (name : String) (children : List FSNode)

def nodeName : FSNode → String
  | .file n => n
  | .dir n _ => n

def nodeIsDir : FSNode → Bool
  | .file _ => false
  | .dir _ _ => true

/-- A compiled `PathSpec`, abstracted as its `match_file` function on the
rendered relative path. -/
abbrev Matcher : Type := String → Bool

/-- src/main.py `is_ignored`: `.git` components are always excluded, then the
optional spec is evaluated on the posix form of the root-relative path. -/
def is_ignored (parts : List String) (spec : Option Matcher) : Bool :=
  if ".git" ∈ parts then true
  else
    match spec with
    | none => false
    | some m => m (joinPosix parts)

def nameLe (a b : FSNode) : Bool := lexLe (nodeName a).data (nodeName b).data

mutual

/-- Sort every directory's children by name, modelling the per-level
`sorted(abs_path.iterdir())` of `build_project_structure` (sorting the tree
once up front is equivalent to sorting each listing at visit time, since each
child's subtree is processed independently). -/
def sortFS : FSNode → FSNode
  | .file n => .file n
  | .dir n cs => .dir n (bSort nameLe (sortFSList cs))

def sortFSList : List FSNode → List FSNode
  | [] => []
  | c :: rest => sortFS c :: sortFSList rest

end

/-- One node of the `project_tree` output dictionaries. -/
inductive PItem where
  | fileItem (name : String) (path : String)
  | dirItem (name : String) (path : String) (children : List PItem)

def itemName : PItem → String
  | .fileItem n _ => n
  | .dirItem n _ _ => n

def itemPath : PItem → String
  | .fileItem _ p => p
  | .dirItem _ p _ => p

/-- An item's path as it would appear in a directory listing (directories
carry a trailing separator there). -/
def itemPathDec : PItem → String
  | .fileItem _ p => p
  | .dirItem _ p _ => p ++ "/"

mutual

/-- src/main.py `build_project_structure` on a name-sorted tree: skip ignored
entries, emit file/directory items, recurse into directories. -/
def buildItem (spec : Option Matcher) (parts : List String) : FSNode → PItem
  | .file n => .fileItem n (joinPosix (parts ++ [n]))
  | .dir n cs =>
    .dirItem n (joinPosix (parts ++ [n])) (buildItems spec (parts ++ [n]) cs)

def buildItems (spec : Option Matcher) (parts : List String) :
    List FSNode → List PItem
  | [] => []
  | c :: rest =>
    if is_ignored (parts ++ [nodeName c]) spec then buildItems spec parts rest
    else buildItem spec parts c :: buildItems spec parts rest

end

def build_project_structure (spec : Option Matcher) (fs : List FSNode) :
    List PItem :=
  buildItems spec [] (bSort nameLe (sortFSList fs))

/-- One element of the `directories` output list. -/
structure DirEntry where
  relative_path : String
  children : List String
deriving DecidableEq

/-- `f"{rel_str}/" if rel_str else "./"`. -/
def entryKey (parts : List String) : String :=
  if parts = [] then "./" else joinPosix parts ++ "/"

/-- The `children` list of one `os.walk` step: non-ignored subdirectories
(with trailing separator) first, then non-ignored files, both in enumeration
order. -/
def entryChildren (spec : Option Matcher) (parts : List String)
    (cs : List FSNode) : List String :=
  ((cs.filter (fun c => nodeIsDir c && !is_ignored (parts ++ [nodeName c]) spec)).map
      (fun c => joinPosix (parts ++ [nodeName c]) ++ "/")) ++
  ((cs.filter (fun c => !nodeIsDir c && !is_ignored (parts ++ [nodeName c]) spec)).map
      (fun c => joinPosix (parts ++ [nodeName c])))

def mkDirEntry (spec : Option Matcher) (parts : List String)
    (cs : List FSNode) : DirEntry :=
  ⟨entryKey parts, entryChildren spec parts cs⟩

mutual

/-- The recursive part of `build_directories_list`: `os.walk` visits every
directory top-down (it never prunes `dirnames`); an ignored directory's own
entry is skipped by the `continue`, but the walk still descends into it. -/
def walkNode (spec : Option Matcher) (parts : List String) :
    FSNode → List DirEntry
  | .file _ => []
  | .dir n cs =>
    (if is_ignored (parts ++ [n]) spec then []
     else [mkDirEntry spec (parts ++ [n]) cs]) ++
    walkChildren spec (parts ++ [n]) cs

def walkChildren (spec : Option Matcher) (parts : List String) :
    List FSNode → List DirEntry
  | [] => []
  | c :: rest => walkNode spec parts c ++ walkChildren spec parts rest

end

/-- src/main.py `build_directories_list`. -/
def build_directories_list (spec : Option Matcher) (fs : List FSNode) :
    List DirEntry :=
  (if is_ignored [] spec then [] else [mkDirEntry spec [] fs]) ++
  walkChildren spec [] fs

/-! ### Report assembly (src/main.py `generate_git_summary_json`) -/

structure FileInfo where
  relative_path : String
  created_at : Option Nat
  git_history : List ChangeEntry
  metadata : Option String
deriving DecidableEq

/-- One element of the `files` output list (src/main.py lines 236–246):
`created_at` is the first event's author date when the history is non-empty,
and the metadata language tag is attached only when the classifier's result
is truthy. -/
def buildFileInfo (rel : String) (history : List ChangeEntry) : FileInfo :=
  { relative_path := rel
    created_at :=
      match history with
      | [] => none
      | e :: _ => some e.author_date
    git_history := history
    metadata :=
      match get_language_from_extension rel with
      | none => none
      | some l => if l = "" then none else some l }

/-- Failure of the commit-stream provider (unreadable repository or missing
branch): PyDriller raises, src/main.py has no handler. -/
structure GitErr where
  msg : String
deriving DecidableEq

structure OutputDoc where
  root_name : String
  root_path : String
  root_structure : List PItem
  files : List FileInfo
  directories : List DirEntry

/-- src/main.py `generate_git_summary_json`.  The commit stream is an
`Except`-valued input: an exception raised while traversing commits
propagates out before the output file is ever opened, so an erroneous stream
yields `Except.error` and no `OutputDoc` exists. -/
def generate_git_summary_json (rootName : String) (fs : List FSNode)
    (spec : Option Matcher) (stream : Except GitErr (List PyCommit)) :
    Except GitErr OutputDoc :=
  let tree := build_project_structure spec fs
  match stream with
  | Except.error e => Except.error e
  | Except.ok commits =>
    let hist := extract_git_history commits
    Except.ok
      { root_name := rootName
        root_path := "."
        root_structure := tree
        files := hist.map (fun kv => buildFileInfo kv.1 kv.2)
        directories := build_directories_list spec fs }

/-! ### Multi-scope ignore evaluation (src/create_filelist_csv.py) -/

/-- `base_dir in path.parents or path == base_dir` on root-relative segment
lists: the base is a (not necessarily proper) prefix of the path. -/
def scopeApplies (base p : List String) : Bool := base == p.take base.length

/-- src/create_filelist_csv.py `is_ignored`: evaluate every scope whose base
directory contains the path, on the path rendered relative to that base;
any match ignores the path. -/
def fileIsIgnored (p : List String) (specs : List (List String × Matcher)) :
    Bool :=
  specs.any (fun bm => scopeApplies bm.1 p && bm.2 (joinPosix (p.drop bm.1.length)))

/-- `raw_patterns.setdefault(base, []).extend(lines)` on an association list. -/
def rawAdd (mp : List (List String × List String)) (k : List String)
    (lines : List String) : List (List String × List String) :=
  match mp with
  | [] => [(k, lines)]
  | (k', l) :: rest =>
    if k' = k then (k', l ++ lines) :: rest else (k', l) :: rawAdd rest k lines

/-- src/create_filelist_csv.py `load_gitignore_specs`, with file reading
abstracted away: each present source contributes its lines under its base
directory (the root for the main `.gitignore` and for `.git/info/exclude`,
the file's parent directory for every extra ignore file), and each base's
accumulated lines are compiled by the external `pathspec` compiler. -/
def load_gitignore_specs (compile : List String → Matcher)
    (mainLines : Option (List String))
    (extras : List (List String × Option (List String)))
    (excludeLines : Option (List String)) : List (List String × Matcher) :=
  let mp : List (List String × List String) :=
    match mainLines with
    | none => []
    | some ls => rawAdd [] [] ls
  let mp := extras.foldl
    (fun acc rl =>
      match rl.2 with
      | none => acc
      | some ls => rawAdd acc rl.1.dropLast ls) mp
  let mp :=
    match excludeLines with
    | none => mp
    | some ls => rawAdd mp [] ls
  mp.map (fun kv => (kv.1, compile kv.2))

/-- src/create_filelist_csv.py `export_to_csv`: a header row, then one row
per file holding its root-relative path with separators turned into
backslashes (`rel_path.replace("/", "\\")`). -/
def export_to_csv (files : List (List String)) : List (List String) :=
  ["relative_path"] :: files.map (fun p => [winSep (joinPosix p)])

/-! ### Auxiliary observations used by the theorems -/

mutual

/-- All path strings occurring in a tree item (its own and its descendants'). -/
def itemPaths : PItem → List String
  | .fileItem _ p => [p]
  | .dirItem _ p cs => p :: itemsPaths cs

def itemsPaths : List PItem → List String
  | [] => []
  | i :: rest => itemPaths i ++ itemsPaths rest

end

/-- Transitive containment of an item in a tree. -/
inductive InTree : PItem → List PItem → Prop where
  | here {i : PItem} {l : List PItem} : i ∈ l → InTree i l
  | deeper {i : PItem} {n p : String} {kids l : List PItem} :
      PItem.dirItem n p kids ∈ l → InTree i kids → InTree i l

/-- Every cumulative prefix of the chain, appended to `parts`, is visible. -/
def visibleChain (spec : Option Matcher) (parts : List String) :
    List String → Bool
  | [] => true
  | n :: rest =>
    !is_ignored (parts ++ [n]) spec && visibleChain spec (parts ++ [n]) rest

/-- First child with the given name (sibling names are unique on a real
filesystem, see `wfList`). -/
def findNode (cs : List FSNode) (n : String) : Option FSNode :=
  cs.find? (fun c => nodeName c == n)

/-- Follow a chain of directory names; answers the children list of the
directory reached. -/
def chainAt (cs : List FSNode) : List String → Option (List FSNode)
  | [] => some cs
  | n :: rest =>
    match findNode cs n with
    | some (.dir _ cs') => chainAt cs' rest
    | _ => none

/-- A usable filesystem name: non-empty, not the special `"."`, and free of
both path separator characters. -/
def goodNameB (s : String) : Bool :=
  !(s == "") && !(s == ".") && !(s.data.contains '/') && !(s.data.contains '\\')

def allGoodB (l : List String) : Bool := l.all goodNameB

mutual

/-- Filesystem sanity: every name is usable and sibling names are distinct. -/
def wfNode : FSNode → Bool
  | .file n => goodNameB n
  | .dir n cs => goodNameB n && wfList cs

def wfList : List FSNode → Bool
  | [] => true
  | c :: rest =>
    wfNode c && !((rest.map nodeName).contains (nodeName c)) && wfList rest

end

/-- Name-sortedness of a built tree, at every level. -/
def namesSortedB : List PItem → Bool
  | [] => true
  | [_] => true
  | a :: b :: rest =>
    lexLe (itemName a).data (itemName b).data && namesSortedB (b :: rest)

mutual

def itemSortedB : PItem → Bool
  | .fileItem _ _ => true
  | .dirItem _ _ cs => namesSortedB cs && itemsSortedB cs

def itemsSortedB : List PItem → Bool
  | [] => true
  | i :: rest => itemSortedB i && itemsSortedB rest

end

/-- The entries generated by a list of (commit, modification) pairs for a
given key. -/
def pairEntries (p : String) (ps : List (PyCommit × PyMod)) :
    List ChangeEntry :=
  (ps.filter (fun cm => effectiveKey cm.2 == some p)).map
    (fun cm => mkEntry cm.1 cm.2)

/-! ### Concrete instances used by witnesses and counterexamples -/

def renMod : PyMod := ⟨some "a.ts", some "b.ts", PyModType.RENAME⟩

def renCommit : PyCommit := ⟨"c2hash", " rename a ", 7, 8, [renMod]⟩

def wAdd : PyCommit := ⟨"x1", "m1", 5, 5, [⟨none, some "f.md", PyModType.ADD⟩]⟩

def wMod2 : PyCommit := ⟨"x2", "m2", 3, 3, [⟨none, some "f.md", PyModType.MODIFY⟩]⟩

def wMod3 : PyCommit := ⟨"x3", "m3", 5, 5, [⟨none, some "f.md", PyModType.MODIFY⟩]⟩

def wCommits : List PyCommit := [wAdd, wMod2, wMod3]

/-- A matcher ignoring exactly the rendered path `"build"` (nothing below
it), as a compiled pattern set may do. -/
def cexM : Matcher := fun s => s == "build"

def cexFS : List FSNode := [FSNode.dir "build" [FSNode.dir "sub" []]]

def c6FS : List FSNode := [FSNode.file "a", FSNode.dir "z" []]

def witM : Matcher := fun s => s == "a.tmp"

def witFS : List FSNode :=
  [FSNode.dir "src" [FSNode.file "main.ts"], FSNode.file "a.tmp"]

/-! ## Lemmas about the stable sort -/

theorem bInsert_mem {α : Type} (le : α → α → Bool) (e : α) (l : List α)
    (a : α) : a ∈ bInsert le e l ↔ a = e ∨ a ∈ l := by
  induction l with
  | nil => simp [bInsert]
  | cons x xs ih =>
    simp only [bInsert]
    by_cases h : le x e = true
    · simp only [if_pos h, List.mem_cons, ih]
      tauto
    · simp only [if_neg h, List.mem_cons]

theorem bInsert_length {α : Type} (le : α → α → Bool) (e : α) (l : List α) :
    (bInsert le e l).length = l.length + 1 := by
  induction l with
  | nil => simp [bInsert]
  | cons x xs ih =>
    simp only [bInsert]
    by_cases h : le x e = true
    · simp [if_pos h, ih]
    · simp [if_neg h]

theorem bInsert_pairwise {α : Type} (le : α → α → Bool)
    (htot : ∀ a b, le a b = true ∨ le b a = true)
    (htrans : ∀ a b c, le a b = true → le b c = true → le a c = true)
    (e : α) (l : List α) (h : l.Pairwise (fun a b => le a b = true)) :
    (bInsert le e l).Pairwise (fun a b => le a b = true) := by
  induction l with
  | nil => simp [bInsert]
  | cons x xs ih =>
    simp only [bInsert]
    rcases List.pairwise_cons.mp h with ⟨hx, hxs⟩
    by_cases hxe : le x e = true
    · rw [if_pos hxe]
      refine List.pairwise_cons.mpr ⟨?_, ih hxs⟩
      intro y hy
      rcases (bInsert_mem le e xs y).mp hy with rfl | hy'
      · exact hxe
      · exact hx y hy'
    · rw [if_neg hxe]
      have hex : le e x = true := (htot x e).resolve_left hxe
      refine List.pairwise_cons.mpr ⟨?_, h⟩
      intro y hy
      rcases List.mem_cons.mp hy with rfl | hy'
      · exact hex
      · exact htrans e x y hex (hx y hy')

theorem bInsert_filter {α : Type} (le : α → α → Bool) (p : α → Bool)
    (htrans : ∀ a b c, le a b = true → le b c = true → le a c = true)
    (hcomp : ∀ a b, p a = true → p b = true → le a b = true)
    (e : α) (l : List α) (h : l.Pairwise (fun a b => le a b = true)) :
    (bInsert le e l).filter p = l.filter p ++ (if p e then [e] else []) := by
  induction l with
  | nil => by_cases hpe : p e = true <;> simp [bInsert, hpe]
  | cons x xs ih =>
    simp only [bInsert]
    rcases List.pairwise_cons.mp h with ⟨hx, hxs⟩
    by_cases hxe : le x e = true
    · rw [if_pos hxe]
      rw [List.filter_cons, List.filter_cons]
      by_cases hpx : p x = true
      · simp only [hpx, if_pos, ih hxs, List.cons_append]
      · simp only [Bool.not_eq_true] at hpx
        simp only [hpx, ih hxs]
        simp
    · rw [if_neg hxe]
      by_cases hpe : p e = true
      · have hnil : (x :: xs).filter p = [] := by
          rw [List.filter_eq_nil]
          intro y hy
          rcases List.mem_cons.mp hy with rfl | hy'
          · intro hpy
            exact hxe (hcomp y e hpy hpe)
          · intro hpy
            exact hxe (htrans x y e (hx y hy') (hcomp y e hpy hpe))
        rw [List.filter_cons, if_pos hpe, hnil, hpe]
        simp
      · simp only [Bool.not_eq_true] at hpe
        rw [List.filter_cons, hpe]
        simp

theorem bSort_foldl_mem {α : Type} (le : α → α → Bool) (l acc : List α)
    (a : α) :
    a ∈ l.foldl (fun acc e => bInsert le e acc) acc ↔ a ∈ acc ∨ a ∈ l := by
  induction l generalizing acc with
  | nil => simp
  | cons e l' ih =>
    simp only [List.foldl_cons, ih, bInsert_mem, List.mem_cons]
    tauto

theorem bSort_mem {α : Type} (le : α → α → Bool) (l : List α) (a : α) :
    a ∈ bSort le l ↔ a ∈ l := by
  unfold bSort
  rw [bSort_foldl_mem]
  simp

theorem bSort_foldl_length {α : Type} (le : α → α → Bool) (l acc : List α) :
    (l.foldl (fun acc e => bInsert le e acc) acc).length =
      acc.length + l.length := by
  induction l generalizing acc with
  | nil => simp
  | cons e l' ih =>
    simp only [List.foldl_cons, ih, bInsert_length, List.length_cons]
    omega

theorem bSort_length {α : Type} (le : α → α → Bool) (l : List α) :
    (bSort le l).length = l.length := by
  unfold bSort
  rw [bSort_foldl_length]
  simp

theorem bSort_ne_nil {α : Type} (le : α → α → Bool) (l : List α)
    (h : l ≠ []) : bSort le l ≠ [] := by
  intro hc
  have := bSort_length le l
  rw [hc] at this
  exact h (List.eq_nil_of_length_eq_zero this.symm)

theorem bSort_foldl_pairwise {α : Type} (le : α → α → Bool)
    (htot : ∀ a b, le a b = true ∨ le b a = true)
    (htrans : ∀ a b c, le a b = true → le b c = true → le a c = true)
    (l acc : List α) (hacc : acc.Pairwise (fun a b => le a b = true)) :
    (l.foldl (fun acc e => bInsert le e acc) acc).Pairwise
      (fun a b => le a b = true) := by
  induction l generalizing acc with
  | nil => simpa using hacc
  | cons e l' ih =>
    simp only [List.foldl_cons]
    exact ih _ (bInsert_pairwise le htot htrans e acc hacc)

theorem bSort_pairwise {α : Type} (le : α → α → Bool)
    (htot : ∀ a b, le a b = true ∨ le b a = true)
    (htrans : ∀ a b c, le a b = true → le b c = true → le a c = true)
    (l : List α) :
    (bSort le l).Pairwise (fun a b => le a b = true) :=
  bSort_foldl_pairwise le htot htrans l [] (by simp)

theorem bSort_foldl_filter {α : Type} (le : α → α → Bool) (p : α → Bool)
    (htot : ∀ a b, le a b = true ∨ le b a = true)
    (htrans : ∀ a b c, le a b = true → le b c = true → le a c = true)
    (hcomp : ∀ a b, p a = true → p b = true → le a b = true)
    (l acc : List α) (hacc : acc.Pairwise (fun a b => le a b = true)) :
    (l.foldl (fun acc e => bInsert le e acc) acc).filter p =
      acc.filter p ++ l.filter p := by
  induction l generalizing acc with
  | nil => simp
  | cons e l' ih =>
    simp only [List.foldl_cons]
    rw [ih _ (bInsert_pairwise le htot htrans e acc hacc),
      bInsert_filter le p htrans hcomp e acc hacc, List.filter_cons]
    by_cases hpe : p e = true
    · simp [hpe]
    · simp only [Bool.not_eq_true] at hpe
      simp [hpe]

theorem bSort_filter {α : Type} (le : α → α → Bool) (p : α → Bool)
    (htot : ∀ a b, le a b = true ∨ le b a = true)
    (htrans : ∀ a b c, le a b = true → le b c = true → le a c = true)
    (hcomp : ∀ a b, p a = true → p b = true → le a b = true)
    (l : List α) : (bSort le l).filter p = l.filter p := by
  unfold bSort
  rw [bSort_foldl_filter le p htot htrans hcomp l [] (by simp)]
  simp

theorem dateLe_total (a b : ChangeEntry) :
    dateLe a b = true ∨ dateLe b a = true := by
  unfold dateLe
  rcases Nat.le_total a.author_date b.author_date with h | h
  · exact Or.inl (by simpa using h)
  · exact Or.inr (by simpa using h)

theorem dateLe_trans (a b c : ChangeEntry) (h1 : dateLe a b = true)
    (h2 : dateLe b c = true) : dateLe a c = true := by
  unfold dateLe at h1 h2 ⊢
  simp only [decide_eq_true_eq] at h1 h2 ⊢
  omega

/-! ## Lemmas about the history aggregator -/

theorem histLookup_histAppend (mp : List (String × List ChangeEntry))
    (k : String) (e : ChangeEntry) (p : String) :
    histLookup (histAppend mp k e) p =
      if k = p then some ((histLookup mp p).getD [] ++ [e])
      else histLookup mp p := by
  induction mp with
  | nil =>
    by_cases h : k = p
    · simp [histAppend, histLookup, h]
    · simp [histAppend, histLookup, h]
  | cons kv rest ih =>
    obtain ⟨k', l⟩ := kv
    by_cases h1 : k' = k
    · subst h1
      by_cases h2 : k' = p
      · subst h2
        simp [histAppend, histLookup]
      · simp [histAppend, histLookup, h2]
    · by_cases h2 : k' = p
      · subst h2
        have hkp : ¬ k = k' := fun hc => h1 hc.symm
        simp [histAppend, histLookup, h1, hkp]
      · simp [histAppend, histLookup, h1, h2, ih]

theorem extractRaw_eq_pairs_foldl (commits : List PyCommit)
    (acc : List (String × List ChangeEntry)) :
    commits.foldl (fun mp c => c.modified_files.foldl (stepMod c) mp) acc =
      (commitPairs commits).foldl (fun mp cm => stepMod cm.1 mp cm.2) acc := by
  induction commits generalizing acc with
  | nil => simp [commitPairs]
  | cons c rest ih =>
    simp only [List.foldl_cons, commitPairs, List.foldl_append, ih,
      List.foldl_map]

theorem pairs_foldl_lookup (ps : List (PyCommit × PyMod))
    (acc : List (String × List ChangeEntry)) (p : String) :
    histLookup (ps.foldl (fun mp cm => stepMod cm.1 mp cm.2) acc) p =
      match histLookup acc p with
      | some l => some (l ++ pairEntries p ps)
      | none =>
        if pairEntries p ps = [] then none else some (pairEntries p ps) := by
  induction ps generalizing acc with
  | nil =>
    simp only [List.foldl_nil, pairEntries, List.filter_nil, List.map_nil]
    cases histLookup acc p <;> simp
  | cons cm ps' ih =>
    simp only [List.foldl_cons]
    rw [ih]
    cases hek : effectiveKey cm.2 with
    | none =>
      have hstep : stepMod cm.1 acc cm.2 = acc := by
        simp [stepMod, hek]
      have hfilt : pairEntries p (cm :: ps') = pairEntries p ps' := by
        simp [pairEntries, List.filter_cons, hek]
      rw [hstep, hfilt]
    | some k =>
      have hstep : stepMod cm.1 acc cm.2 = histAppend acc k (mkEntry cm.1 cm.2) := by
        simp [stepMod, hek]
      rw [hstep, histLookup_histAppend]
      by_cases hkp : k = p
      · subst hkp
        have hfilt : pairEntries k (cm :: ps') =
            mkEntry cm.1 cm.2 :: pairEntries k ps' := by
          simp [pairEntries, List.filter_cons, hek]
        rw [if_pos rfl, hfilt]
        cases histLookup acc k <;> simp
      · have hbeq : (effectiveKey cm.2 == some p) = false := by
          rw [hek]
          simp [hkp]
        have hfilt : pairEntries p (cm :: ps') = pairEntries p ps' := by
          simp [pairEntries, List.filter_cons, hbeq]
        rw [if_neg hkp, hfilt]

theorem keyedEntries_eq_pairEntries (p : String) (commits : List PyCommit) :
    keyedEntries p commits = pairEntries p (commitPairs commits) := rfl

theorem extractRaw_lookup (commits : List PyCommit) (p : String) :
    histLookup (extractRaw commits) p =
      if keyedEntries p commits = [] then none
      else some (keyedEntries p commits) := by
  unfold extractRaw
  rw [extractRaw_eq_pairs_foldl, pairs_foldl_lookup, keyedEntries_eq_pairEntries]
  simp [histLookup]

theorem histLookup_map_sort (mp : List (String × List ChangeEntry))
    (f : List ChangeEntry → List ChangeEntry) (p : String) :
    histLookup (mp.map (fun kv => (kv.1, f kv.2))) p =
      (histLookup mp p).map f := by
  induction mp with
  | nil => simp [histLookup]
  | cons kv rest ih =>
    obtain ⟨k', l⟩ := kv
    by_cases h : k' = p
    · simp [histLookup, h]
    · simp [histLookup, h, ih]

theorem extract_lookup (commits : List PyCommit) (p : String) :
    histLookup (extract_git_history commits) p =
      if keyedEntries p commits = [] then none
      else some (bSort dateLe (keyedEntries p commits)) := by
  unfold extract_git_history
  rw [histLookup_map_sort, extractRaw_lookup]
  by_cases h : keyedEntries p commits = []
  · simp [h]
  · simp [h]

theorem extractRaw_values_ne_nil (commits : List PyCommit)
    (kv : String × List ChangeEntry) (h : kv ∈ extractRaw commits) :
    kv.2 ≠ [] := by
  unfold extractRaw at h
  rw [extractRaw_eq_pairs_foldl] at h
  have hgen : ∀ (ps : List (PyCommit × PyMod))
      (acc : List (String × List ChangeEntry)),
      (∀ kv' ∈ acc, kv'.2 ≠ []) →
      ∀ kv' ∈ ps.foldl (fun mp cm => stepMod cm.1 mp cm.2) acc, kv'.2 ≠ [] := by
    intro ps
    induction ps with
    | nil => intro acc hacc kv' h'; exact hacc kv' h'
    | cons cm ps' ih =>
      intro acc hacc kv' h'
      refine ih _ ?_ kv' h'
      intro kv'' h''
      cases hek : effectiveKey cm.2 with
      | none =>
        simp only [stepMod, hek] at h''
        exact hacc kv'' h''
      | some k =>
        simp only [stepMod, hek] at h''
        clear h' ih
        induction acc with
        | nil =>
          simp only [histAppend, List.mem_singleton] at h''
          subst h''
          simp
        | cons kv0 rest ih0 =>
          obtain ⟨k0, l0⟩ := kv0
          by_cases hk : k0 = k
          · simp only [histAppend, if_pos hk, List.mem_cons] at h''
            rcases h'' with rfl | h''
            · simp
            · exact hacc kv'' (List.mem_cons_of_mem _ h'')
          · simp only [histAppend, if_neg hk, List.mem_cons] at h''
            rcases h'' with rfl | h''
            · exact hacc (k0, l0) (List.mem_cons_self _ _)
            · exact ih0 (fun kv1 h1 => hacc kv1 (List.mem_cons_of_mem _ h1)) h''
  exact hgen (commitPairs commits) [] (by simp) kv h

theorem extract_values_ne_nil (commits : List PyCommit)
    (kv : String × List ChangeEntry) (h : kv ∈ extract_git_history commits) :
    kv.2 ≠ [] := by
  unfold extract_git_history at h
  rcases List.mem_map.mp h with ⟨kv0, hmem, heq⟩
  have h0 := extractRaw_values_ne_nil commits kv0 hmem
  have : kv.2 = bSort dateLe kv0.2 := by rw [← heq]
  rw [this]
  exact bSort_ne_nil dateLe kv0.2 h0

/-! ## C1: keying of change entries, rename contract -/

/-- C1: for every change entry the aggregator keys the resulting event under
the entry's new path when present (a non-empty path; Python truthiness),
otherwise under its prior path, and skips the entry when neither is present
(`effectiveKey` is exactly `rel_path = new_path or old_path` /
`if not rel_path: continue`).  Consequently a rename commit produces exactly
one event, keyed by the new path, and none keyed by the old path. -/
theorem history_keying_rule (c : PyCommit) (m : PyMod) (A B : String)
    (hold : m.old_path = some A) (hnew : m.new_path = some B)
    (hB : B ≠ "") (hAB : A ≠ B) (hmods : c.modified_files = [m]) :
    (∀ (commits : List PyCommit) (p : String),
        histLookup (extract_git_history commits) p =
          if keyedEntries p commits = [] then none
          else some (bSort dateLe (keyedEntries p commits))) ∧
    (∀ (c' : PyCommit) (m' : PyMod), c'.modified_files = [m'] →
        effectiveKey m' = none → extract_git_history [c'] = []) ∧
    extract_git_history [c] = [(B, [mkEntry c m])] ∧
    histLookup (extract_git_history [c]) A = none := by
  have heff : effectiveKey m = some B := by
    simp [effectiveKey, pyOrStr, pyTruthy, hnew, hB]
  have hextract : extract_git_history [c] = [(B, [mkEntry c m])] := by
    simp [extract_git_history, extractRaw, hmods, stepMod, heff, histAppend,
      bSort, bInsert]
  refine ⟨extract_lookup, ?_, hextract, ?_⟩
  · intro c' m' hmods' heff'
    simp [extract_git_history, extractRaw, hmods', stepMod, heff']
  · rw [hextract]
    simp [histLookup, Ne.symm hAB]

/-- Witness for C1 at a concrete rename commit. -/
theorem history_keying_rule_witness :
    extract_git_history [renCommit] = [("b.ts", [mkEntry renCommit renMod])] ∧
    histLookup (extract_git_history [renCommit]) "a.ts" = none :=
  ⟨(history_keying_rule renCommit renMod "a.ts" "b.ts" rfl rfl (by decide)
      (by decide) rfl).2.2.1,
   (history_keying_rule renCommit renMod "a.ts" "b.ts" rfl rfl (by decide)
      (by decide) rfl).2.2.2⟩

/-! ## C2: per-file histories are sorted and the sort is stable -/

/-- C2: every key's event list is non-decreasing by author timestamp, and the
events with any fixed author timestamp appear in their original commit-stream
order (`keyedEntries` is the per-key subsequence of the stream in stream
order), i.e. the sort is stable. -/
theorem history_sorted_stable (commits : List PyCommit) (p : String)
    (l : List ChangeEntry)
    (h : histLookup (extract_git_history commits) p = some l) :
    l.Pairwise (fun a b => a.author_date ≤ b.author_date) ∧
    ∀ t : Nat, l.filter (fun e => e.author_date = t) =
      (keyedEntries p commits).filter (fun e => e.author_date = t) := by
  rw [extract_lookup] at h
  by_cases hk : keyedEntries p commits = []
  · rw [if_pos hk] at h
    exact absurd h (by simp)
  · rw [if_neg hk] at h
    have hl : l = bSort dateLe (keyedEntries p commits) := (Option.some.inj h).symm
    subst hl
    constructor
    · have hpw := bSort_pairwise dateLe dateLe_total dateLe_trans
        (keyedEntries p commits)
      exact hpw.imp (fun hab => by simpa [dateLe] using hab)
    · intro t
      apply bSort_filter dateLe _ dateLe_total dateLe_trans
      intro a b ha hb
      simp only [decide_eq_true_eq] at ha hb
      simp [dateLe, ha, hb]

/-- Witness for C2 at a stream with a timestamp tie. -/
theorem history_sorted_stable_witness :
    (bSort dateLe (keyedEntries "f.md" wCommits)).Pairwise
      (fun a b => a.author_date ≤ b.author_date) ∧
    ∀ t : Nat,
      (bSort dateLe (keyedEntries "f.md" wCommits)).filter
        (fun e => e.author_date = t) =
      (keyedEntries "f.md" wCommits).filter (fun e => e.author_date = t) :=
  history_sorted_stable wCommits "f.md" (bSort dateLe (keyedEntries "f.md" wCommits))
    (by decide)

/-! ## C8: commit-stream failure propagates, no partial output -/

/-- C8: when the commit-stream provider fails (repository unreadable, branch
missing), `generate_git_summary_json` propagates the failure and no output
document exists. -/
theorem provider_failure_propagates (rootName : String) (fs : List FSNode)
    (spec : Option Matcher) (stream : Except GitErr (List PyCommit))
    (e : GitErr) (h : stream = Except.error e) :
    generate_git_summary_json rootName fs spec stream = Except.error e ∧
    ∀ doc : OutputDoc,
      generate_git_summary_json rootName fs spec stream ≠ Except.ok doc := by
  subst h
  refine ⟨rfl, ?_⟩
  intro doc hc
  simp [generate_git_summary_json] at hc

/-- Witness for C8 at a concrete provider error. -/
theorem provider_failure_propagates_witness :
    generate_git_summary_json "repo" [] none
        (Except.error ⟨"branch missing"⟩) = Except.error ⟨"branch missing"⟩ ∧
    ∀ doc : OutputDoc,
      generate_git_summary_json "repo" [] none
        (Except.error ⟨"branch missing"⟩) ≠ Except.ok doc :=
  provider_failure_propagates "repo" [] none (Except.error ⟨"branch missing"⟩)
    ⟨"branch missing"⟩ rfl

/-! ## C9: the language classifier is total -/

theorem mapGet_some_mem (m : List (String × String)) (k v : String)
    (h : mapGet m k = some v) : (k, v) ∈ m := by
  induction m with
  | nil => simp [mapGet] at h
  | cons kv rest ih =>
    obtain ⟨a, b⟩ := kv
    by_cases hak : a = k
    · subst hak
      have hbv : b = v := by simpa [mapGet] using h
      subst hbv
      exact List.mem_cons_self _ _
    · simp only [mapGet, if_neg hak] at h
      exact List.mem_cons_of_mem _ (ih h)

theorem mapGet_isSome (m : List (String × String)) (k : String) :
    (mapGet m k).isSome = true ↔ ∃ v, (k, v) ∈ m := by
  induction m with
  | nil => simp [mapGet]
  | cons kv rest ih =>
    obtain ⟨a, b⟩ := kv
    by_cases hak : a = k
    · subst hak
      simp [mapGet]
    · simp only [mapGet, if_neg hak, ih, List.mem_cons]
      constructor
      · rintro ⟨v, hv⟩
        exact ⟨v, Or.inr hv⟩
      · rintro ⟨v, hv | hv⟩
        · exact absurd (congrArg Prod.fst hv).symm hak
        · exact ⟨v, hv⟩

/-- C9: the classifier is a total function; it yields a label exactly when
the filename's final suffix is a key of the known-language map, yields
nothing for empty (absent) or unknown suffixes, and the metadata field of an
assembled file record is exactly the classifier's output (every label of the
map is non-empty, so Python's truthiness test never masks one). -/
theorem language_classifier_total (f : String) :
    ((get_language_from_extension f).isSome = true ↔
      ∃ l, (pySuffix f, l) ∈ LANGUAGE_MAP) ∧
    (∀ l, get_language_from_extension f = some l → (pySuffix f, l) ∈ LANGUAGE_MAP) ∧
    (pySuffix f = "" → get_language_from_extension f = none) ∧
    (∀ hist, (buildFileInfo f hist).metadata = get_language_from_extension f) := by
  refine ⟨mapGet_isSome LANGUAGE_MAP (pySuffix f), ?_, ?_, ?_⟩
  · intro l hl
    exact mapGet_some_mem LANGUAGE_MAP (pySuffix f) l hl
  · intro h
    unfold get_language_from_extension
    rw [h]
    decide
  · intro hist
    unfold buildFileInfo
    cases hl : get_language_from_extension f with
    | none => simp [hl]
    | some l =>
      have hmem := mapGet_some_mem LANGUAGE_MAP (pySuffix f) l hl
      have hne : ∀ kv ∈ LANGUAGE_MAP, kv.2 ≠ "" := by decide
      have : l ≠ "" := hne (pySuffix f, l) hmem
      simp [hl, this]

/-- Witness for C9: a known suffix classifies, a missing suffix does not. -/
theorem language_classifier_total_witness :
    (get_language_from_extension "src/app.ts").isSome = true ∧
    get_language_from_extension "README" = none :=
  ⟨(language_classifier_total "src/app.ts").1.mpr ⟨"TypeScript", by decide⟩,
   (language_classifier_total "README").2.2.1 (by decide)⟩

/-! ## C10: histories are never empty, created_at is always present -/

/-- C10: a key of the aggregator's result is only created when an event is
appended, so every value is a non-empty list, and every file record built by
`generate_git_summary_json` has `created_at = some` (the first event's author
timestamp): the `None` branch of `history[0] if history else None` is
unreachable. -/
theorem histories_nonempty (commits : List PyCommit)
    (kv : String × List ChangeEntry) (hkv : kv ∈ extract_git_history commits)
    (rootName : String) (fs : List FSNode) (spec : Option Matcher)
    (doc : OutputDoc)
    (hdoc : generate_git_summary_json rootName fs spec (Except.ok commits) =
      Except.ok doc) :
    kv.2 ≠ [] ∧
    ∀ fi ∈ doc.files, ∃ e rest, fi.git_history = e :: rest ∧
      fi.created_at = some e.author_date := by
  refine ⟨extract_values_ne_nil commits kv hkv, ?_⟩
  intro fi hfi
  have hdoc' : doc.files =
      (extract_git_history commits).map (fun kv => buildFileInfo kv.1 kv.2) := by
    simp only [generate_git_summary_json, Except.ok.injEq] at hdoc
    rw [← hdoc]
  rw [hdoc'] at hfi
  rcases List.mem_map.mp hfi with ⟨kv', hmem', rfl⟩
  have hne := extract_values_ne_nil commits kv' hmem'
  cases hval : kv'.2 with
  | nil => exact absurd hval hne
  | cons e rest =>
    refine ⟨e, rest, ?_, ?_⟩
    · simp [buildFileInfo, hval]
    · simp [buildFileInfo, hval]

/-- Witness for C10 at a concrete stream and document. -/
theorem histories_nonempty_witness :
    ("f.md", bSort dateLe (keyedEntries "f.md" wCommits)).2 ≠ [] ∧
    ∀ fi ∈ (OutputDoc.mk "repo" "." (build_project_structure none [])
        ((extract_git_history wCommits).map (fun kv => buildFileInfo kv.1 kv.2))
        (build_directories_list none [])).files,
      ∃ e rest, fi.git_history = e :: rest ∧
        fi.created_at = some e.author_date :=
  histories_nonempty wCommits ("f.md", bSort dateLe (keyedEntries "f.md" wCommits))
    (by decide) "repo" [] none
    (OutputDoc.mk "repo" "." (build_project_structure none [])
      ((extract_git_history wCommits).map (fun kv => buildFileInfo kv.1 kv.2))
      (build_directories_list none []))
    (by rfl)

/-! ## Induction principles for the nested filesystem type -/

theorem fsNodeInd {P : FSNode → Prop}
    (hf : ∀ n, P (FSNode.file n))
    (hd : ∀ n cs, (∀ c ∈ cs, P c) → P (FSNode.dir n cs)) :
    ∀ t, P t
  | FSNode.file n => hf n
  | FSNode.dir n cs => hd n cs (fun c hc => fsNodeInd hf hd c)
termination_by t => sizeOf t
decreasing_by
  have := List.sizeOf_lt_of_mem hc
  simp only [FSNode.dir.sizeOf_spec]
  omega

theorem fsListInd {Q : List FSNode → Prop} (h0 : Q [])
    (hf : ∀ n rest, Q rest → Q (FSNode.file n :: rest))
    (hd : ∀ n cs rest, Q cs → Q rest → Q (FSNode.dir n cs :: rest)) :
    ∀ l, Q l
  | [] => h0
  | FSNode.file n :: rest => hf n rest (fsListInd h0 hf hd rest)
  | FSNode.dir n cs :: rest =>
    hd n cs rest (fsListInd h0 hf hd cs) (fsListInd h0 hf hd rest)
termination_by l => sizeOf l
decreasing_by
  all_goals simp only [List.cons.sizeOf_spec, FSNode.dir.sizeOf_spec]
  all_goals omega

/-! ## Basic lemmas about sorting and building -/

theorem nodeName_sortFS (c : FSNode) : nodeName (sortFS c) = nodeName c := by
  cases c <;> simp [sortFS, nodeName]

theorem nodeIsDir_sortFS (c : FSNode) : nodeIsDir (sortFS c) = nodeIsDir c := by
  cases c <;> simp [sortFS, nodeIsDir]

theorem sortFSList_eq_map (l : List FSNode) : sortFSList l = l.map sortFS := by
  induction l with
  | nil => simp [sortFSList]
  | cons c rest ih => simp [sortFSList, ih]

theorem mem_sortedChildren (l : List FSNode) (x : FSNode) :
    x ∈ bSort nameLe (sortFSList l) ↔ ∃ c ∈ l, x = sortFS c := by
  rw [bSort_mem, sortFSList_eq_map, List.mem_map]
  constructor
  · rintro ⟨c, hc, rfl⟩
    exact ⟨c, hc, rfl⟩
  · rintro ⟨c, hc, rfl⟩
    exact ⟨c, hc, rfl⟩

theorem buildItems_mem (spec : Option Matcher) (parts : List String)
    (ns : List FSNode) (i : PItem) :
    i ∈ buildItems spec parts ns ↔
      ∃ c ∈ ns, is_ignored (parts ++ [nodeName c]) spec = false ∧
        i = buildItem spec parts c := by
  induction ns with
  | nil => simp [buildItems]
  | cons c rest ih =>
    simp only [buildItems]
    by_cases hig : is_ignored (parts ++ [nodeName c]) spec = true
    · rw [if_pos hig, ih]
      constructor
      · rintro ⟨c', hc', hig', hi⟩
        exact ⟨c', List.mem_cons_of_mem _ hc', hig', hi⟩
      · rintro ⟨c', hc', hig', hi⟩
        rcases List.mem_cons.mp hc' with rfl | hc''
        · rw [hig] at hig'
          exact absurd hig' (by simp)
        · exact ⟨c', hc'', hig', hi⟩
    · rw [if_neg hig]
      have hig0 : is_ignored (parts ++ [nodeName c]) spec = false :=
        Bool.not_eq_true _ ▸ (Bool.eq_false_iff.mpr hig)
      constructor
      · intro hmem
        rcases List.mem_cons.mp hmem with rfl | hmem'
        · exact ⟨c, List.mem_cons_self _ _, hig0, rfl⟩
        · rcases ih.mp hmem' with ⟨c', hc', hig', hi⟩
          exact ⟨c', List.mem_cons_of_mem _ hc', hig', hi⟩
      · rintro ⟨c', hc', hig', hi⟩
        rcases List.mem_cons.mp hc' with rfl | hc''
        · rw [hi]
          exact List.mem_cons_self _ _
        · exact List.mem_cons_of_mem _ (ih.mpr ⟨c', hc'', hig', hi⟩)

/-! ## Lemmas about names and rendered paths -/

theorem goodNameB_ne_nil (s : String) (h : goodNameB s = true) : s.data ≠ [] := by
  intro hc
  have hs : s = "" := String.ext hc
  subst hs
  simp [goodNameB] at h

theorem goodNameB_ne_dot (s : String) (h : goodNameB s = true) : s ≠ "." := by
  intro hc
  subst hc
  simp [goodNameB] at h

theorem goodNameB_no_slash (s : String) (h : goodNameB s = true) :
    '/' ∉ s.data := by
  intro hc
  simp only [goodNameB, Bool.and_eq_true, Bool.not_eq_true'] at h
  have h2 := h.1.2
  have htrue : s.data.contains '/' = true := List.elem_eq_true_of_mem hc
  rw [h2] at htrue
  exact absurd htrue (by simp)

theorem allGoodB_cons (s : String) (l : List String) :
    allGoodB (s :: l) = true ↔ goodNameB s = true ∧ allGoodB l = true := by
  simp [allGoodB, List.all_cons, Bool.and_eq_true]

theorem allGoodB_append (p q : List String) :
    allGoodB (p ++ q) = true ↔ allGoodB p = true ∧ allGoodB q = true := by
  simp [allGoodB, List.all_append, Bool.and_eq_true]

theorem joinPosix_data_cons (s : String) (l : List String) (h : l ≠ []) :
    (joinPosix (s :: l)).data = s.data ++ '/' :: (joinPosix l).data := by
  match l with
  | [] => exact absurd rfl h
  | t :: l' =>
    show (s ++ "/" ++ joinPosix (t :: l')).data = _
    rw [String.data_append, String.data_append,
      show ("/" : String).data = ['/'] from rfl, List.append_assoc]
    rfl

theorem joinPosix_data_ne_nil (p : List String) (hp : p ≠ [])
    (hg : allGoodB p = true) : (joinPosix p).data ≠ [] := by
  match p with
  | [s] =>
    show s.data ≠ []
    exact goodNameB_ne_nil s ((allGoodB_cons s []).mp hg).1
  | s :: t :: r =>
    rw [joinPosix_data_cons s (t :: r) (by simp)]
    simp

theorem joinPosix_no_tail_slash :
    ∀ (p : List String), p ≠ [] → allGoodB p = true →
      ∀ u : List Char, (joinPosix p).data ≠ u ++ ['/']
  | [], hp, _ => absurd rfl hp
  | [s], _, hg => by
    intro u heq
    have hns := goodNameB_no_slash s ((allGoodB_cons s []).mp hg).1
    have : '/' ∈ s.data := by
      show '/' ∈ (joinPosix [s]).data
      rw [heq]
      simp
    exact hns this
  | s :: t :: r, _, hg => by
    intro u heq
    have hgt : allGoodB (t :: r) = true := ((allGoodB_cons s (t :: r)).mp hg).2
    have hJ : (joinPosix (t :: r)).data ≠ [] :=
      joinPosix_data_ne_nil (t :: r) (by simp) hgt
    rw [joinPosix_data_cons s (t :: r) (by simp)] at heq
    have hrev := congrArg List.reverse heq
    rw [List.reverse_append, List.reverse_append, List.reverse_cons] at hrev
    cases hrevJ : (joinPosix (t :: r)).data.reverse with
    | nil => exact hJ (by simpa using congrArg List.reverse hrevJ)
    | cons c w =>
      rw [hrevJ] at hrev
      simp only [List.append_assoc, List.cons_append, List.reverse_cons,
        List.reverse_nil, List.nil_append] at hrev
      have hc : c = '/' := (List.cons.injEq _ _ _ _ ▸ hrev).1
      have hJeq : (joinPosix (t :: r)).data = w.reverse ++ ['/'] := by
        have hback : (joinPosix (t :: r)).data = (c :: w).reverse := by
          rw [← hrevJ, List.reverse_reverse]
        rw [hback, List.reverse_cons, hc]
      exact joinPosix_no_tail_slash (t :: r) (by simp) hgt w.reverse hJeq

theorem joinPosix_ne_dot (p : List String) (hp : p ≠ [])
    (hg : allGoodB p = true) : joinPosix p ≠ "." := by
  match p with
  | [s] => exact goodNameB_ne_dot s ((allGoodB_cons s []).mp hg).1
  | s :: t :: r =>
    intro hc
    have hdata := congrArg String.data hc
    rw [joinPosix_data_cons s (t :: r) (by simp)] at hdata
    have hs : s.data ≠ [] :=
      goodNameB_ne_nil s ((allGoodB_cons s (t :: r)).mp hg).1
    cases hsd : s.data with
    | nil => exact hs hsd
    | cons a as =>
      rw [hsd] at hdata
      simp only [List.cons_append] at hdata
      have : as ++ '/' :: (joinPosix (t :: r)).data = [] :=
        (List.cons.injEq _ _ _ _ ▸ hdata).2
      simp at this

theorem seg_append_inj (x y : List Char) :
    ∀ (u v : List Char), '/' ∉ u → '/' ∉ v →
      u ++ '/' :: x = v ++ '/' :: y → u = v ∧ x = y := by
  intro u
  induction u with
  | nil =>
    intro v hu hv h
    cases v with
    | nil =>
      refine ⟨rfl, ?_⟩
      simpa using h
    | cons b vs =>
      exfalso
      simp only [List.nil_append, List.cons_append, List.cons.injEq] at h
      apply hv
      rw [← h.1]
      exact List.mem_cons_self _ _
  | cons a us ih =>
    intro v hu hv h
    cases v with
    | nil =>
      exfalso
      simp only [List.cons_append, List.nil_append, List.cons.injEq] at h
      apply hu
      rw [h.1]
      exact List.mem_cons_self _ _
    | cons b vs =>
      simp only [List.cons_append, List.cons.injEq] at h
      have hu' : '/' ∉ us := fun hm => hu (List.mem_cons_of_mem _ hm)
      have hv' : '/' ∉ vs := fun hm => hv (List.mem_cons_of_mem _ hm)
      rcases ih vs hu' hv' h.2 with ⟨h1, h2⟩
      subst h1
      exact ⟨by rw [h.1], h2⟩

theorem joinPosix_inj :
    ∀ (p q : List String), p ≠ [] → q ≠ [] → allGoodB p = true →
      allGoodB q = true → joinPosix p = joinPosix q → p = q
  | [], _, hp, _, _, _, _ => absurd rfl hp
  | _, [], _, hq, _, _, _ => absurd rfl hq
  | [s], [t], _, _, _, _, h => by rw [show joinPosix [s] = s from rfl,
      show joinPosix [t] = t from rfl] at h; rw [h]
  | [s], t :: t' :: r, _, _, hgp, hgq, h => by
    exfalso
    have hd := congrArg String.data h
    rw [joinPosix_data_cons t (t' :: r) (by simp)] at hd
    have hns := goodNameB_no_slash s ((allGoodB_cons s []).mp hgp).1
    apply hns
    show '/' ∈ (joinPosix [s]).data
    rw [hd]
    simp
  | s :: s' :: r, [t], _, _, hgp, hgq, h => by
    exfalso
    have hd := congrArg String.data h
    rw [joinPosix_data_cons s (s' :: r) (by simp)] at hd
    have hns := goodNameB_no_slash t ((allGoodB_cons t []).mp hgq).1
    apply hns
    show '/' ∈ (joinPosix [t]).data
    rw [← hd]
    simp
  | s :: s' :: r, t :: t' :: w, _, _, hgp, hgq, h => by
    have hd := congrArg String.data h
    rw [joinPosix_data_cons s (s' :: r) (by simp),
      joinPosix_data_cons t (t' :: w) (by simp)] at hd
    have hgs := (allGoodB_cons s (s' :: r)).mp hgp
    have hgt := (allGoodB_cons t (t' :: w)).mp hgq
    rcases seg_append_inj _ _ s.data t.data
        (goodNameB_no_slash s hgs.1) (goodNameB_no_slash t hgt.1) hd with ⟨h1, h2⟩
    have hst : s = t := String.ext h1
    have hrest : joinPosix (s' :: r) = joinPosix (t' :: w) := String.ext h2
    have := joinPosix_inj (s' :: r) (t' :: w) (by simp) (by simp) hgs.2 hgt.2 hrest
    rw [hst, this]

theorem string_append_right_cancel (a b c : String) (h : a ++ c = b ++ c) :
    a = b := by
  apply String.ext
  have hd := congrArg String.data h
  rw [String.data_append, String.data_append] at hd
  exact List.append_cancel_right hd

theorem join_ne_join_slash (p q : List String) (hp : p ≠ []) (hq : q ≠ [])
    (hgp : allGoodB p = true) (hgq : allGoodB q = true) :
    joinPosix p ≠ joinPosix q ++ "/" := by
  intro hc
  have hd := congrArg String.data hc
  rw [String.data_append] at hd
  exact joinPosix_no_tail_slash p hp hgp (joinPosix q).data (by simpa using hd)

/-! ## Lemmas about filesystem well-formedness -/

theorem wfList_mem (l : List FSNode) (h : wfList l = true) (c : FSNode)
    (hc : c ∈ l) : wfNode c = true := by
  induction l with
  | nil => simp at hc
  | cons c' rest ih =>
    simp only [wfList, Bool.and_eq_true] at h
    rcases List.mem_cons.mp hc with rfl | hc'
    · exact h.1.1
    · exact ih h.2 hc'

theorem wfNode_name (c : FSNode) (h : wfNode c = true) :
    goodNameB (nodeName c) = true := by
  cases c with
  | file n => simpa [wfNode, nodeName] using h
  | dir n cs =>
    simp only [wfNode, Bool.and_eq_true] at h
    simpa [nodeName] using h.1

theorem wfNode_children (n : String) (cs : List FSNode)
    (h : wfNode (FSNode.dir n cs) = true) : wfList cs = true := by
  simp only [wfNode, Bool.and_eq_true] at h
  exact h.2

/-! ## Lemmas about chain visibility -/

theorem visibleChain_take (spec : Option Matcher) (q : List String) :
    ∀ (parts : List String), visibleChain spec parts q = true →
      ∀ k, 0 < k → k ≤ q.length →
        is_ignored (parts ++ q.take k) spec = false := by
  induction q with
  | nil =>
    intro parts _ k h1 h2
    simp at h2
    omega
  | cons n rest ih =>
    intro parts h k h1 h2
    simp only [visibleChain, Bool.and_eq_true, Bool.not_eq_true'] at h
    cases k with
    | zero => omega
    | succ k' =>
      rw [List.take_succ_cons]
      cases Nat.eq_zero_or_pos k' with
      | inl hk0 =>
        subst hk0
        simpa using h.1
      | inr hkpos =>
        have := ih (parts ++ [n]) h.2 k' hkpos
          (by simpa using Nat.succ_le_succ_iff.mp h2)
        rw [List.append_assoc] at this
        simpa using this

/-! ## Characterization of the built tree's paths -/

theorem itemsPaths_mem (l : List PItem) (s : String) :
    s ∈ itemsPaths l ↔ ∃ i ∈ l, s ∈ itemPaths i := by
  induction l with
  | nil => simp [itemsPaths]
  | cons i rest ih =>
    simp only [itemsPaths, List.mem_append, ih, List.mem_cons]
    constructor
    · rintro (hs | ⟨i', hi', hs⟩)
      · exact ⟨i, Or.inl rfl, hs⟩
      · exact ⟨i', Or.inr hi', hs⟩
    · rintro ⟨i', hi' | hi', hs⟩
      · subst hi'
        exact Or.inl hs
      · exact Or.inr ⟨i', hi', hs⟩

theorem buildItem_paths_char (spec : Option Matcher) :
    ∀ c : FSNode, ∀ (parts : List String) (s : String),
      s ∈ itemPaths (buildItem spec parts (sortFS c)) →
      ∃ q : List String,
        s = joinPosix (parts ++ nodeName c :: q) ∧
        visibleChain spec (parts ++ [nodeName c]) q = true ∧
        (wfNode c = true → allGoodB (nodeName c :: q) = true) := by
  intro c
  induction c using fsNodeInd with
  | hf n =>
    intro parts s hs
    simp only [sortFS, buildItem, itemPaths, List.mem_singleton] at hs
    refine ⟨[], by simpa [nodeName] using hs, rfl, ?_⟩
    intro hwf
    have := wfNode_name _ hwf
    simp only [nodeName] at this
    simp [allGoodB, nodeName, this]
  | hd n cs ihcs =>
    intro parts s hs
    simp only [sortFS, buildItem, itemPaths, List.mem_cons] at hs
    rcases hs with rfl | hs
    · refine ⟨[], by simp [nodeName], rfl, ?_⟩
      intro hwf
      have := wfNode_name _ hwf
      simp only [nodeName] at this
      simp [allGoodB, nodeName, this]
    · rw [itemsPaths_mem] at hs
      obtain ⟨i, hi, hsi⟩ := hs
      rw [buildItems_mem] at hi
      obtain ⟨x, hx, higx, rfl⟩ := hi
      rw [mem_sortedChildren] at hx
      obtain ⟨c0, hc0, rfl⟩ := hx
      obtain ⟨q', heq, hvis, hgood⟩ := ihcs c0 hc0 (parts ++ [n]) s hsi
      refine ⟨nodeName c0 :: q', ?_, ?_, ?_⟩
      · rw [heq, List.append_assoc]
        rfl
      · simp only [visibleChain, Bool.and_eq_true, Bool.not_eq_true']
        constructor
        · rw [nodeName_sortFS] at higx
          simpa [nodeName] using higx
        · simpa using hvis
      · intro hwf
        have hgn := wfNode_name _ hwf
        simp only [nodeName] at hgn
        have hcs := wfNode_children n cs hwf
        have hwc0 := wfList_mem cs hcs c0 hc0
        have := hgood hwc0
        rw [allGoodB_cons] at this ⊢
        refine ⟨by simpa [nodeName] using hgn, ?_⟩
        rw [allGoodB_cons]
        exact this

theorem tree_paths_char (spec : Option Matcher) (fs : List FSNode) (s : String)
    (hs : s ∈ itemsPaths (build_project_structure spec fs)) :
    ∃ q : List String, q ≠ [] ∧ s = joinPosix q ∧
      visibleChain spec [] q = true ∧
      (wfList fs = true → allGoodB q = true) := by
  unfold build_project_structure at hs
  rw [itemsPaths_mem] at hs
  obtain ⟨i, hi, hsi⟩ := hs
  rw [buildItems_mem] at hi
  obtain ⟨x, hx, higx, rfl⟩ := hi
  rw [mem_sortedChildren] at hx
  obtain ⟨c0, hc0, rfl⟩ := hx
  obtain ⟨q', heq, hvis, hgood⟩ := buildItem_paths_char spec c0 [] s hsi
  refine ⟨nodeName c0 :: q', by simp, by simpa using heq, ?_, ?_⟩
  · simp only [visibleChain, Bool.and_eq_true, Bool.not_eq_true']
    constructor
    · rw [nodeName_sortFS] at higx
      simpa using higx
    · simpa using hvis
  · intro hwf
    exact hgood (wfList_mem fs hwf c0 hc0)

/-! ## Lemmas about the directory walk -/

theorem append_singleton_cons (parts : List String) (n : String)
    (q : List String) : (parts ++ [n]) ++ q = parts ++ n :: q := by
  simp

theorem contains_false_not_mem (l : List String) (a : String)
    (h : l.contains a = false) : a ∉ l := by
  intro hm
  have htrue : l.contains a = true := List.elem_eq_true_of_mem hm
  rw [h] at htrue
  exact absurd htrue (by simp)

theorem findNode_cons (c : FSNode) (rest : List FSNode) (m : String) :
    findNode (c :: rest) m =
      if nodeName c == m then some c else findNode rest m := by
  unfold findNode
  rw [List.find?_cons]
  cases h : nodeName c == m <;> simp [h]

theorem findNode_name_mem (l : List FSNode) (m : String) (node : FSNode)
    (h : findNode l m = some node) : node ∈ l ∧ nodeName node = m := by
  refine ⟨List.mem_of_find?_eq_some h, ?_⟩
  have := List.find?_some h
  simpa using this

theorem chainAt_first_name (l : List FSNode) (m : String) (q' : List String)
    (cs' : List FSNode) (h : chainAt l (m :: q') = some cs') :
    ∃ cs1, findNode l m = some (FSNode.dir m cs1) ∧
      chainAt cs1 q' = some cs' := by
  unfold chainAt at h
  split at h
  next n1 cs1 heq =>
    have hname := (findNode_name_mem l m _ heq).2
    simp only [nodeName] at hname
    subst hname
    exact ⟨cs1, heq, h⟩
  next =>
    exact absurd h (by simp)

theorem chainAt_cons_ne (c : FSNode) (rest : List FSNode) (m : String)
    (q' : List String) (hne : nodeName c ≠ m) :
    chainAt (c :: rest) (m :: q') = chainAt rest (m :: q') := by
  have hfind : findNode (c :: rest) m = findNode rest m := by
    rw [findNode_cons, if_neg]
    simp [hne]
  simp only [chainAt, hfind]

/-- From a well-formed sibling list, a chain resolving in the tail also
resolves in the whole list (the head's name cannot shadow it). -/
theorem chainAt_cons_of_tail (c : FSNode) (rest : List FSNode)
    (q : List String) (cs' : List FSNode) (hq : q ≠ [])
    (hnodup : ((rest.map nodeName).contains (nodeName c)) = false)
    (h : chainAt rest q = some cs') : chainAt (c :: rest) q = some cs' := by
  match q, hq with
  | m :: q', _ =>
    obtain ⟨cs1, hfind, _⟩ := chainAt_first_name rest m q' cs' h
    have hmem := (findNode_name_mem rest m _ hfind).1
    have hmname : m ∈ rest.map nodeName := by
      rw [List.mem_map]
      exact ⟨_, hmem, by simp [nodeName]⟩
    have hne : nodeName c ≠ m := by
      intro hc
      exact contains_false_not_mem _ _ hnodup (hc ▸ hmname)
    rw [chainAt_cons_ne c rest m q' hne]
    exact h

theorem walkChildren_char (spec : Option Matcher) :
    ∀ (l : List FSNode) (parts : List String) (e : DirEntry),
      e ∈ walkChildren spec parts l →
      ∃ (q : List String) (cs' : List FSNode),
        q ≠ [] ∧ e = mkDirEntry spec (parts ++ q) cs' ∧
        is_ignored (parts ++ q) spec = false ∧
        (wfList l = true →
          allGoodB q = true ∧ chainAt l q = some cs' ∧ wfList cs' = true) := by
  intro l
  induction l using fsListInd with
  | h0 =>
    intro parts e he
    simp [walkChildren] at he
  | hf n rest ihrest =>
    intro parts e he
    simp only [walkChildren, walkNode, List.nil_append] at he
    obtain ⟨q, cs', hq, he', hig, hwf⟩ := ihrest parts e he
    refine ⟨q, cs', hq, he', hig, ?_⟩
    intro hwfl
    simp only [wfList, Bool.and_eq_true] at hwfl
    obtain ⟨hgood, hchain, hwcs⟩ := hwf hwfl.2
    refine ⟨hgood, ?_, hwcs⟩
    exact chainAt_cons_of_tail _ rest q cs' hq (by simpa using hwfl.1.2) hchain
  | hd n cs rest ihcs ihrest =>
    intro parts e he
    simp only [walkChildren, walkNode] at he
    rw [List.mem_append] at he
    rcases he with he | he
    · rw [List.mem_append] at he
      rcases he with he | he
      · by_cases hig : is_ignored (parts ++ [n]) spec = true
        · rw [if_pos hig] at he
          simp at he
        · rw [if_neg hig] at he
          have hig0 : is_ignored (parts ++ [n]) spec = false :=
            Bool.eq_false_iff.mpr hig
          have he' : e = mkDirEntry spec (parts ++ [n]) cs := by
            simpa using he
          refine ⟨[n], cs, by simp, he', hig0, ?_⟩
          intro hwfl
          simp only [wfList, Bool.and_eq_true] at hwfl
          have hwn := hwfl.1.1
          simp only [wfNode, Bool.and_eq_true] at hwn
          refine ⟨by simp [allGoodB, hwn.1], ?_, hwn.2⟩
          simp [chainAt, findNode_cons, nodeName]
      · obtain ⟨q', cs', hq', he', hig', hwf'⟩ := ihcs (parts ++ [n]) e he
        rw [append_singleton_cons] at he' hig'
        refine ⟨n :: q', cs', by simp, he', hig', ?_⟩
        intro hwfl
        simp only [wfList, Bool.and_eq_true] at hwfl
        have hwn := hwfl.1.1
        simp only [wfNode, Bool.and_eq_true] at hwn
        obtain ⟨hgood', hchain', hwcs'⟩ := hwf' hwn.2
        refine ⟨by rw [allGoodB_cons]; exact ⟨hwn.1, hgood'⟩, ?_, hwcs'⟩
        have hstep : chainAt (FSNode.dir n cs :: rest) (n :: q') =
            chainAt cs q' := by
          simp [chainAt, findNode_cons, nodeName]
        rw [hstep]
        exact hchain'
    · obtain ⟨q, cs', hq, he', hig, hwf⟩ := ihrest parts e he
      refine ⟨q, cs', hq, he', hig, ?_⟩
      intro hwfl
      simp only [wfList, Bool.and_eq_true] at hwfl
      obtain ⟨hgood, hchain, hwcs⟩ := hwf hwfl.2
      refine ⟨hgood, ?_, hwcs⟩
      exact chainAt_cons_of_tail _ rest q cs' hq (by simpa using hwfl.1.2) hchain

theorem directories_char (spec : Option Matcher) (fs : List FSNode)
    (e : DirEntry) (he : e ∈ build_directories_list spec fs) :
    (is_ignored [] spec = false ∧ e = mkDirEntry spec [] fs) ∨
    (∃ (q : List String) (cs' : List FSNode),
      q ≠ [] ∧ e = mkDirEntry spec q cs' ∧ is_ignored q spec = false ∧
      (wfList fs = true →
        allGoodB q = true ∧ chainAt fs q = some cs' ∧ wfList cs' = true)) := by
  unfold build_directories_list at he
  rw [List.mem_append] at he
  rcases he with he | he
  · by_cases hig : is_ignored [] spec = true
    · rw [if_pos hig] at he
      simp at he
    · rw [if_neg hig] at he
      exact Or.inl ⟨Bool.eq_false_iff.mpr hig, by simpa using he⟩
  · obtain ⟨q, cs', hq, he', hig, hwf⟩ := walkChildren_char spec fs [] e he
    rw [List.nil_append] at he' hig
    exact Or.inr ⟨q, cs', hq, he', hig, hwf⟩

/-- A directory reachable through a chain, if not itself ignored, produces a
directory entry: existence direction of the walk. -/
theorem walkChildren_entry_of_mem (spec : Option Matcher)
    (parts : List String) (n : String) (cs1 : List FSNode) :
    ∀ l : List FSNode, FSNode.dir n cs1 ∈ l →
      is_ignored (parts ++ [n]) spec = false →
      mkDirEntry spec (parts ++ [n]) cs1 ∈ walkChildren spec parts l := by
  intro l
  induction l with
  | nil => simp
  | cons c rest ih =>
    intro hmem hig
    rcases List.mem_cons.mp hmem with rfl | hmem'
    · simp only [walkChildren, walkNode]
      rw [if_neg (by simp [hig])]
      exact List.mem_append_left _ (List.mem_append_left _ (by simp))
    · simp only [walkChildren]
      exact List.mem_append_right _ (ih hmem' hig)

theorem walkChildren_mem_lift (spec : Option Matcher) (parts : List String)
    (n : String) (cs1 : List FSNode) (x : DirEntry) :
    ∀ l : List FSNode, FSNode.dir n cs1 ∈ l →
      x ∈ walkChildren spec (parts ++ [n]) cs1 →
      x ∈ walkChildren spec parts l := by
  intro l
  induction l with
  | nil => simp
  | cons c rest ih =>
    intro hmem hx
    rcases List.mem_cons.mp hmem with rfl | hmem'
    · simp only [walkChildren, walkNode]
      exact List.mem_append_left _ (List.mem_append_right _ hx)
    · simp only [walkChildren]
      exact List.mem_append_right _ (ih hmem' hx)

theorem walkChildren_emits (spec : Option Matcher) :
    ∀ (q : List String) (l : List FSNode) (parts : List String)
      (cs : List FSNode), q ≠ [] → chainAt l q = some cs →
      is_ignored (parts ++ q) spec = false →
      mkDirEntry spec (parts ++ q) cs ∈ walkChildren spec parts l := by
  intro q
  induction q with
  | nil => intro l parts cs hq; exact absurd rfl hq
  | cons n q' ih =>
    intro l parts cs _ hchain hig
    obtain ⟨cs1, hfind, hrest⟩ := chainAt_first_name l n q' cs hchain
    have hmem := (findNode_name_mem l n _ hfind).1
    cases q' with
    | nil =>
      have hcs : cs1 = cs := by
        simpa [chainAt] using hrest
      subst hcs
      exact walkChildren_entry_of_mem spec parts n cs1 l hmem hig
    | cons m q'' =>
      have hig' : is_ignored ((parts ++ [n]) ++ m :: q'') spec = false := by
        rw [append_singleton_cons]
        exact hig
      have hx := ih cs1 (parts ++ [n]) cs (by simp) hrest hig'
      rw [append_singleton_cons] at hx
      exact walkChildren_mem_lift spec parts n cs1 _ l hmem hx

/-! ## C3: visibility of ignored paths -/

theorem entryKey_eq (q : List String) (hq : q ≠ []) :
    entryKey q = joinPosix q ++ "/" := by
  simp [entryKey, hq]

theorem entryChildren_mem (spec : Option Matcher) (q : List String)
    (cs' : List FSNode) (s : String) :
    s ∈ entryChildren spec q cs' ↔
      ∃ c ∈ cs', is_ignored (q ++ [nodeName c]) spec = false ∧
        ((nodeIsDir c = true ∧ s = joinPosix (q ++ [nodeName c]) ++ "/") ∨
         (nodeIsDir c = false ∧ s = joinPosix (q ++ [nodeName c]))) := by
  unfold entryChildren
  rw [List.mem_append, List.mem_map, List.mem_map]
  constructor
  · rintro (⟨c, hc, rfl⟩ | ⟨c, hc, rfl⟩)
    · simp only [List.mem_filter, Bool.and_eq_true, Bool.not_eq_true'] at hc
      exact ⟨c, hc.1, hc.2.2, Or.inl ⟨hc.2.1, rfl⟩⟩
    · simp only [List.mem_filter, Bool.and_eq_true, Bool.not_eq_true'] at hc
      refine ⟨c, hc.1, hc.2.2, Or.inr ⟨?_, rfl⟩⟩
      simpa using hc.2.1
  · rintro ⟨c, hc, hig, ⟨hdir, rfl⟩ | ⟨hdir, rfl⟩⟩
    · refine Or.inl ⟨c, ?_, rfl⟩
      simp only [List.mem_filter, Bool.and_eq_true, Bool.not_eq_true']
      exact ⟨hc, hdir, hig⟩
    · refine Or.inr ⟨c, ?_, rfl⟩
      simp only [List.mem_filter, Bool.and_eq_true, Bool.not_eq_true']
      exact ⟨hc, by simp [hdir], hig⟩

theorem not_mem_entryChildren (spec : Option Matcher) (q : List String)
    (cs' : List FSNode) (p : List String)
    (hgq : allGoodB q = true) (hwcs : wfList cs' = true)
    (hgood : allGoodB p = true) (hp : p ≠ [])
    (higp : is_ignored p spec = true) :
    joinPosix p ∉ entryChildren spec q cs' ∧
    (joinPosix p ++ "/") ∉ entryChildren spec q cs' := by
  have hgc : ∀ c ∈ cs', allGoodB (q ++ [nodeName c]) = true := by
    intro c hc
    rw [allGoodB_append, allGoodB_cons]
    exact ⟨hgq, wfNode_name c (wfList_mem cs' hwcs c hc), by simp [allGoodB]⟩
  constructor
  · intro hmem
    rcases (entryChildren_mem spec q cs' _).mp hmem with
      ⟨c, hc, hig, ⟨_, heq⟩ | ⟨_, heq⟩⟩
    · exact join_ne_join_slash p (q ++ [nodeName c]) hp (by simp)
        hgood (hgc c hc) heq
    · have := joinPosix_inj p (q ++ [nodeName c]) hp (by simp)
        hgood (hgc c hc) heq
      rw [← this] at hig
      rw [higp] at hig
      exact absurd hig (by simp)
  · intro hmem
    rcases (entryChildren_mem spec q cs' _).mp hmem with
      ⟨c, hc, hig, ⟨_, heq⟩ | ⟨_, heq⟩⟩
    · have hcancel := string_append_right_cancel _ _ _ heq
      have := joinPosix_inj p (q ++ [nodeName c]) hp (by simp)
        hgood (hgc c hc) hcancel
      rw [← this] at hig
      rw [higp] at hig
      exact absurd hig (by simp)
    · exact join_ne_join_slash (q ++ [nodeName c]) p (by simp) hp
        (hgc c hc) hgood heq.symm

/-- C3, counterexample: with a pattern set matching exactly `"build"`, the
directory `build` is ignored, yet `os.walk` still descends into it and the
non-ignored descendant `build/sub` gets its own directory entry — so a path
beneath an ignored directory does appear in the directory listings. -/
theorem ignored_dir_descendant_listed :
    is_ignored ["build"] (some cexM) = true ∧
    is_ignored ["build", "sub"] (some cexM) = false ∧
    build_directories_list (some cexM) cexFS =
      [⟨"./", []⟩, ⟨"build/sub/", []⟩] :=
  ⟨by decide, by decide, by decide⟩

/-- C3 (amended): an ignored path, and every path beneath an ignored
directory, is absent from the nested tree, and the tree walk skips ignored
directories without descending; an ignored path itself never appears as a
directory-entry key nor inside any entry's children list.  However (contrary
to the original claim) the flat-listing walk does descend into ignored
directories, so a non-ignored path beneath an ignored directory can appear
as its own directory entry (see the counterexample). -/
theorem ignore_absence_amended (spec : Option Matcher) (fs : List FSNode)
    (p : List String) (hwf : wfList fs = true) (hgood : allGoodB p = true)
    (hp : p ≠ []) (k : Nat) (hk0 : 0 < k) (hkl : k ≤ p.length)
    (hig : is_ignored (p.take k) spec = true) :
    joinPosix p ∉ itemsPaths (build_project_structure spec fs) ∧
    (∀ (parts : List String) (n : String) (cs rest : List FSNode),
        is_ignored (parts ++ [n]) spec = true →
        buildItems spec parts (FSNode.dir n cs :: rest) =
          buildItems spec parts rest) ∧
    (is_ignored p spec = true →
      ∀ e ∈ build_directories_list spec fs,
        e.relative_path ≠ joinPosix p ++ "/" ∧
        joinPosix p ∉ e.children ∧ (joinPosix p ++ "/") ∉ e.children) := by
  refine ⟨?_, ?_, ?_⟩
  · intro hmem
    obtain ⟨q, hq, heq, hvis, hgoodq⟩ := tree_paths_char spec fs _ hmem
    have hpq : p = q := joinPosix_inj p q hp hq hgood (hgoodq hwf) heq
    subst hpq
    have hfalse := visibleChain_take spec p [] hvis k hk0 hkl
    rw [List.nil_append] at hfalse
    rw [hig] at hfalse
    exact absurd hfalse (by simp)
  · intro parts n cs rest hig'
    simp [buildItems, nodeName, hig']
  · intro higp e he
    rcases directories_char spec fs e he with ⟨_, rfl⟩ | ⟨q, cs', hq, rfl, higq, hwfq⟩
    · refine ⟨?_, ?_, ?_⟩
      · show entryKey [] ≠ joinPosix p ++ "/"
        intro hc
        have hc' : "." ++ "/" = joinPosix p ++ "/" := hc
        have := string_append_right_cancel "." (joinPosix p) "/" hc'
        exact joinPosix_ne_dot p hp hgood this.symm
      · exact (not_mem_entryChildren spec [] fs p rfl hwf hgood hp higp).1
      · exact (not_mem_entryChildren spec [] fs p rfl hwf hgood hp higp).2
    · obtain ⟨hgq, _, hwcs⟩ := hwfq hwf
      refine ⟨?_, ?_, ?_⟩
      · show entryKey q ≠ joinPosix p ++ "/"
        rw [entryKey_eq q hq]
        intro hc
        have hjoin := string_append_right_cancel _ _ _ hc
        have := joinPosix_inj q p hq hp hgq hgood hjoin
        rw [← this] at higp
        rw [higq] at higp
        exact absurd higp (by simp)
      · exact (not_mem_entryChildren spec q cs' p hgq hwcs hgood hp higp).1
      · exact (not_mem_entryChildren spec q cs' p hgq hwcs hgood hp higp).2

/-- Witness for C3's amended theorem at the counterexample instance. -/
theorem ignore_absence_amended_witness :
    joinPosix ["build"] ∉
      itemsPaths (build_project_structure (some cexM) cexFS) ∧
    (∀ (parts : List String) (n : String) (cs rest : List FSNode),
        is_ignored (parts ++ [n]) (some cexM) = true →
        buildItems (some cexM) parts (FSNode.dir n cs :: rest) =
          buildItems (some cexM) parts rest) ∧
    (is_ignored ["build"] (some cexM) = true →
      ∀ e ∈ build_directories_list (some cexM) cexFS,
        e.relative_path ≠ joinPosix ["build"] ++ "/" ∧
        joinPosix ["build"] ∉ e.children ∧
        (joinPosix ["build"] ++ "/") ∉ e.children) :=
  ignore_absence_amended (some cexM) cexFS ["build"] (by decide) (by decide)
    (by decide) 1 (by decide) (by decide) (by decide)

/-! ## C6: ordering of emitted children -/

theorem lexLe_total (a : List Char) : ∀ b, lexLe a b = true ∨ lexLe b a = true := by
  induction a with
  | nil => intro b; exact Or.inl rfl
  | cons x xs ih =>
    intro b
    cases b with
    | nil => exact Or.inr rfl
    | cons y ys =>
      by_cases hxy : x = y
      · subst hxy
        simpa [lexLe] using ih ys
      · rcases lt_or_gt_of_ne hxy with hlt | hgt
        · exact Or.inl (by simp [lexLe, hxy, hlt])
        · exact Or.inr (by simp [lexLe, Ne.symm hxy, hgt])

theorem lexLe_trans (a : List Char) :
    ∀ b c, lexLe a b = true → lexLe b c = true → lexLe a c = true := by
  induction a with
  | nil => intro b c _ _; rfl
  | cons x xs ih =>
    intro b c h1 h2
    cases b with
    | nil => simp [lexLe] at h1
    | cons y ys =>
      cases c with
      | nil => simp [lexLe] at h2
      | cons z zs =>
        by_cases hxy : x = y
        · subst hxy
          by_cases hyz : x = z
          · subst hyz
            simp only [lexLe, if_pos rfl] at h1 h2 ⊢
            exact ih ys zs h1 h2
          · simp only [lexLe, if_pos rfl] at h1
            simp only [lexLe, if_neg hyz] at h2 ⊢
            exact h2
        · by_cases hyz : y = z
          · subst hyz
            simp only [lexLe, if_neg hxy] at h1 ⊢
            exact h1
          · simp only [lexLe, if_neg hxy, decide_eq_true_eq] at h1
            simp only [lexLe, if_neg hyz, decide_eq_true_eq] at h2
            have hxz : x < z := lt_trans h1 h2
            simp [lexLe, ne_of_lt hxz, hxz]

theorem nameLe_total (a b : FSNode) : nameLe a b = true ∨ nameLe b a = true :=
  lexLe_total (nodeName a).data (nodeName b).data

theorem nameLe_trans (a b c : FSNode) (h1 : nameLe a b = true)
    (h2 : nameLe b c = true) : nameLe a c = true :=
  lexLe_trans (nodeName a).data (nodeName b).data (nodeName c).data h1 h2

theorem buildItem_name (spec : Option Matcher) (parts : List String)
    (c : FSNode) : itemName (buildItem spec parts c) = nodeName c := by
  cases c <;> simp [buildItem, itemName, nodeName]

theorem itemsSortedB_iff (l : List PItem) :
    itemsSortedB l = true ↔ ∀ i ∈ l, itemSortedB i = true := by
  induction l with
  | nil => simp [itemsSortedB]
  | cons i rest ih =>
    simp only [itemsSortedB, Bool.and_eq_true, ih]
    constructor
    · rintro ⟨h1, h2⟩ i' hi'
      rcases List.mem_cons.mp hi' with rfl | hi''
      · exact h1
      · exact h2 i' hi''
    · intro h
      exact ⟨h i (List.mem_cons_self _ _),
        fun i' hi' => h i' (List.mem_cons_of_mem _ hi')⟩

theorem buildItems_namesSorted (spec : Option Matcher) (parts : List String) :
    ∀ ns : List FSNode, ns.Pairwise (fun a b => nameLe a b = true) →
      namesSortedB (buildItems spec parts ns) = true := by
  intro ns
  induction ns with
  | nil => intro _; rfl
  | cons c rest ih =>
    intro hpw
    rcases List.pairwise_cons.mp hpw with ⟨hc, hrest⟩
    simp only [buildItems]
    by_cases hig : is_ignored (parts ++ [nodeName c]) spec = true
    · rw [if_pos hig]
      exact ih hrest
    · rw [if_neg hig]
      cases hbi : buildItems spec parts rest with
      | nil => rfl
      | cons i' l'' =>
        have hi' : i' ∈ buildItems spec parts rest := by
          rw [hbi]
          exact List.mem_cons_self _ _
        rcases (buildItems_mem spec parts rest i').mp hi' with ⟨c', hc', _, rfl⟩
        have hnames := hc c' hc'
        simp only [namesSortedB, Bool.and_eq_true]
        refine ⟨?_, ?_⟩
        · rw [buildItem_name, buildItem_name]
          exact hnames
        · rw [← hbi]
          exact ih hrest

theorem buildItem_sorted (spec : Option Matcher) :
    ∀ c : FSNode, ∀ parts : List String,
      itemSortedB (buildItem spec parts (sortFS c)) = true := by
  intro c
  induction c using fsNodeInd with
  | hf n => intro parts; rfl
  | hd n cs ihcs =>
    intro parts
    simp only [sortFS, buildItem, itemSortedB, Bool.and_eq_true]
    constructor
    · exact buildItems_namesSorted spec (parts ++ [n]) _
        (bSort_pairwise nameLe nameLe_total nameLe_trans _)
    · rw [itemsSortedB_iff]
      intro i hi
      rcases (buildItems_mem spec (parts ++ [n]) _ i).mp hi with ⟨x, hx, _, rfl⟩
      rcases (mem_sortedChildren cs x).mp hx with ⟨c0, hc0, rfl⟩
      exact ihcs c0 hc0 (parts ++ [n])

/-- C6, counterexample: the flat directory listing's children come from
`os.walk`'s `dirnames`/`filenames` without sorting, directories first — here
the entry for the root lists `z/` before `a`, which is not sorted-name
order, refuting the claim for the flat `DirectoryEntry` children lists. -/
theorem flat_children_unsorted :
    build_directories_list none c6FS = [⟨"./", ["z/", "a"]⟩, ⟨"z/", []⟩] ∧
    ¬ (["z/", "a"].Pairwise (fun a b : String => lexLe a.data b.data = true)) :=
  ⟨by decide, by decide⟩

/-- C6 (amended): the nested tree processes and emits children in
sorted-name order at every level, so the tree is deterministic for a fixed
filesystem; but a flat `DirectoryEntry`'s children list (contrary to the
original claim) is emitted as non-ignored subdirectories first and files
second, each group in the filesystem's enumeration order, without sorting. -/
theorem sorted_children_amended (spec : Option Matcher) (fs : List FSNode) :
    namesSortedB (build_project_structure spec fs) = true ∧
    itemsSortedB (build_project_structure spec fs) = true ∧
    ∀ e ∈ build_directories_list spec fs,
      ∃ (q : List String) (cs' : List FSNode), e = mkDirEntry spec q cs' := by
  refine ⟨?_, ?_, ?_⟩
  · exact buildItems_namesSorted spec [] _
      (bSort_pairwise nameLe nameLe_total nameLe_trans _)
  · rw [itemsSortedB_iff]
    intro i hi
    rcases (buildItems_mem spec [] _ i).mp hi with ⟨x, hx, _, rfl⟩
    rcases (mem_sortedChildren fs x).mp hx with ⟨c0, hc0, rfl⟩
    exact buildItem_sorted spec c0 []
  · intro e he
    rcases directories_char spec fs e he with ⟨_, rfl⟩ | ⟨q, cs', _, rfl, _, _⟩
    · exact ⟨[], fs, rfl⟩
    · exact ⟨q, cs', rfl⟩

/-- Witness for C6's amended theorem at the counterexample filesystem. -/
theorem sorted_children_amended_witness :
    namesSortedB (build_project_structure none c6FS) = true ∧
    itemsSortedB (build_project_structure none c6FS) = true ∧
    ∃ (q : List String) (cs' : List FSNode),
      (⟨"./", ["z/", "a"]⟩ : DirEntry) = mkDirEntry none q cs' :=
  ⟨(sorted_children_amended none c6FS).1,
   (sorted_children_amended none c6FS).2.1,
   (sorted_children_amended none c6FS).2.2 ⟨"./", ["z/", "a"]⟩ (by decide)⟩

/-! ## C5: scope applicability and any-exclusion-wins -/

theorem fileIsIgnored_iff (p : List String)
    (specs : List (List String × Matcher)) :
    fileIsIgnored p specs = true ↔
      ∃ bm ∈ specs, scopeApplies bm.1 p = true ∧
        bm.2 (joinPosix (p.drop bm.1.length)) = true := by
  induction specs with
  | nil =>
    constructor
    · intro h
      exact absurd h (by simp [fileIsIgnored])
    · rintro ⟨bm, hmem, _⟩
      exact absurd hmem (List.not_mem_nil bm)
  | cons bm rest ih =>
    unfold fileIsIgnored at ih ⊢
    rw [List.any_cons, Bool.or_eq_true, Bool.and_eq_true]
    constructor
    · intro h
      rcases h with ⟨ha, hb⟩ | h1
      · exact ⟨bm, List.mem_cons_self _ _, ha, hb⟩
      · obtain ⟨bm', hmem, ha, hb⟩ := ih.mp h1
        exact ⟨bm', List.mem_cons_of_mem _ hmem, ha, hb⟩
    · rintro ⟨bm', hmem, ha, hb⟩
      rcases List.mem_cons.mp hmem with rfl | hmem'
      · exact Or.inl ⟨ha, hb⟩
      · exact Or.inr (ih.mpr ⟨bm', hmem', ha, hb⟩)

/-- C5: a scope with base directory `D` is evaluated only for paths equal to
`D` or descending from `D` (a scope whose base is not a prefix of the path
contributes nothing), patterns are matched against the path rendered
relative to the scope's base (so a nested ignore file's patterns see paths
relative to its own parent directory: `sub/.gitignore` governs `sub/x`, not
`top/x`), a path is ignored iff at least one applicable scope matches it
(any exclusion wins, no cross-scope negation), and
`load_gitignore_specs` scopes an extra ignore file to its parent
directory. -/
theorem scope_evaluation (p : List String)
    (specs : List (List String × Matcher)) (b : List String) (M : Matcher) :
    (fileIsIgnored p specs = true ↔
      ∃ bm ∈ specs, scopeApplies bm.1 p = true ∧
        bm.2 (joinPosix (p.drop bm.1.length)) = true) ∧
    (scopeApplies b p = false →
      fileIsIgnored p ((b, M) :: specs) = fileIsIgnored p specs) ∧
    (∀ bm ∈ specs, scopeApplies bm.1 p = true →
        bm.2 (joinPosix (p.drop bm.1.length)) = true →
        fileIsIgnored p specs = true) ∧
    (∀ x : String,
      fileIsIgnored ["sub", x] [(["sub"], M)] = M x ∧
      fileIsIgnored ["top", x] [(["sub"], M)] = false) ∧
    (∀ (compile : List String → Matcher) (r : List String)
        (ls : List String),
      load_gitignore_specs compile none [(r, some ls)] none =
        [(r.dropLast, compile ls)]) := by
  have hiff := fileIsIgnored_iff p specs
  refine ⟨hiff, ?_, ?_, ?_, ?_⟩
  · intro h
    simp [fileIsIgnored, List.any_cons, h]
  · intro bm hbm h1 h2
    exact hiff.mpr ⟨bm, hbm, h1, h2⟩
  · intro x
    have hne : ((["sub"] : List String) == ["top"]) = false := by decide
    constructor
    · simp [fileIsIgnored, scopeApplies, joinPosix]
    · simp [fileIsIgnored, scopeApplies, hne]
  · intro compile r ls
    rfl

/-- Witness for C5 at concrete scopes. -/
theorem scope_evaluation_witness :
    fileIsIgnored ["sub", "a.tmp"] [(["sub"], witM)] = witM "a.tmp" ∧
    fileIsIgnored ["top", "a.tmp"] [(["sub"], witM)] = false ∧
    load_gitignore_specs (fun _ => witM) none
        [(["sub", ".gitignore"], some ["*.tmp"])] none = [(["sub"], witM)] :=
  ⟨((scope_evaluation ["sub", "a.tmp"] [] [] witM).2.2.2.1 "a.tmp").1,
   ((scope_evaluation ["sub", "a.tmp"] [] [] witM).2.2.2.1 "a.tmp").2,
   (scope_evaluation ["sub", "a.tmp"] [] [] witM).2.2.2.2 (fun _ => witM)
     ["sub", ".gitignore"] ["*.tmp"]⟩

/-! ## C7: path normalization in matching and outputs -/

/-- C7, counterexample: the CSV file list renders paths with backslash
separators (`rel_path.replace("/", "\\")` in `export_to_csv`), so not every
output artifact uses forward-slash form. -/
theorem csv_backslash_output :
    export_to_csv [["a", "b.txt"]] = [["relative_path"], ["a\\b.txt"]] ∧
    "a\\b.txt" ≠ "a/b.txt" :=
  ⟨by decide, by decide⟩

theorem joinPosix_mem_slash (p : List String) (h : 2 ≤ p.length) :
    '/' ∈ (joinPosix p).data := by
  match p, h with
  | a :: b :: r, _ =>
    rw [joinPosix_data_cons a (b :: r) (by simp)]
    exact List.mem_append_right _ (List.mem_cons_self _ _)

/-- C7 (amended): paths are rendered in forward-slash, root-relative form
for every ignore-matching call and throughout the JSON outputs (tree item
paths and directory entries are `joinPosix`-rendered chains), but the CSV
file list (contrary to the original claim) converts the separators to
backslashes on output: its cells contain no forward slash, and differ from
the posix form for any multi-segment path. -/
theorem path_normalization_amended (spec : Option Matcher) (fs : List FSNode)
    (m : Matcher) (parts : List String) (files : List (List String)) :
    (∀ s ∈ itemsPaths (build_project_structure spec fs),
        ∃ q : List String, q ≠ [] ∧ s = joinPosix q) ∧
    (∀ e ∈ build_directories_list spec fs,
        ∃ (q : List String) (cs' : List FSNode), e = mkDirEntry spec q cs') ∧
    (is_ignored parts (some m) = true ↔
      ".git" ∈ parts ∨ m (joinPosix parts) = true) ∧
    (export_to_csv files =
      ["relative_path"] :: files.map (fun p => [winSep (joinPosix p)])) ∧
    (∀ s : String, '/' ∉ (winSep s).data) ∧
    (∀ p : List String, 2 ≤ p.length →
      winSep (joinPosix p) ≠ joinPosix p) := by
  have hwin : ∀ s : String, '/' ∉ (winSep s).data := by
    intro s hmem
    unfold winSep at hmem
    rw [List.mem_map] at hmem
    obtain ⟨c, _, hc⟩ := hmem
    by_cases h : c = '/'
    · rw [if_pos h] at hc
      exact absurd hc (by decide)
    · rw [if_neg h] at hc
      exact h hc
  refine ⟨?_, ?_, ?_, rfl, hwin, ?_⟩
  · intro s hs
    obtain ⟨q, hq, heq, _, _⟩ := tree_paths_char spec fs s hs
    exact ⟨q, hq, heq⟩
  · intro e he
    rcases directories_char spec fs e he with ⟨_, rfl⟩ | ⟨q, cs', _, rfl, _, _⟩
    · exact ⟨[], fs, rfl⟩
    · exact ⟨q, cs', rfl⟩
  · unfold is_ignored
    by_cases hgit : ".git" ∈ parts
    · simp [hgit]
    · simp [hgit]
  · intro p hp heq
    have := joinPosix_mem_slash p hp
    rw [← heq] at this
    exact hwin (joinPosix p) this

/-- Witness for C7's amended theorem at a concrete two-segment path. -/
theorem path_normalization_amended_witness :
    export_to_csv [["a", "b.txt"]] =
      ["relative_path"] ::
        [["a", "b.txt"]].map (fun p => [winSep (joinPosix p)]) ∧
    winSep (joinPosix ["a", "b.txt"]) ≠ joinPosix ["a", "b.txt"] :=
  ⟨(path_normalization_amended none [] witM [] [["a", "b.txt"]]).2.2.2.1,
   (path_normalization_amended none [] witM [] [["a", "b.txt"]]).2.2.2.2.2
     ["a", "b.txt"] (by decide)⟩

/-! ## C4: agreement between the nested tree and the flat directory index -/

theorem findNode_of_mem_nodup :
    ∀ (cs : List FSNode), wfList cs = true → ∀ c ∈ cs,
      findNode cs (nodeName c) = some c := by
  intro cs
  induction cs with
  | nil => intro _ c hc; simp at hc
  | cons c' rest ih =>
    intro hwf c hc
    simp only [wfList, Bool.and_eq_true] at hwf
    rcases List.mem_cons.mp hc with rfl | hc'
    · rw [findNode_cons, if_pos (by simp)]
    · have hmname : nodeName c ∈ rest.map nodeName := by
        rw [List.mem_map]
        exact ⟨c, hc', rfl⟩
      have hne : nodeName c' ≠ nodeName c := by
        intro hcontra
        exact contains_false_not_mem _ _ (by simpa using hwf.1.2)
          (hcontra ▸ hmname)
      rw [findNode_cons, if_neg (by simp [hne])]
      exact ih hwf.2 c hc'

theorem buildItems_dir_mem (spec : Option Matcher) (parts : List String)
    (cs : List FSNode) (hwf : wfList cs = true) (n P : String)
    (kids : List PItem)
    (hmem : PItem.dirItem n P kids ∈
      buildItems spec parts (bSort nameLe (sortFSList cs))) :
    ∃ cs0 : List FSNode,
      findNode cs n = some (FSNode.dir n cs0) ∧ wfList cs0 = true ∧
      goodNameB n = true ∧
      is_ignored (parts ++ [n]) spec = false ∧
      P = joinPosix (parts ++ [n]) ∧
      kids = buildItems spec (parts ++ [n]) (bSort nameLe (sortFSList cs0)) := by
  rcases (buildItems_mem spec parts _ _).mp hmem with ⟨x, hx, hig, heq⟩
  rcases (mem_sortedChildren cs x).mp hx with ⟨c0, hc0, rfl⟩
  cases c0 with
  | file nm => simp [sortFS, buildItem] at heq
  | dir n0 cs0 =>
    simp only [sortFS, buildItem, PItem.dirItem.injEq] at heq
    obtain ⟨rfl, hP, hkids⟩ := heq
    rw [nodeName_sortFS] at hig
    simp only [nodeName] at hig
    have hw0 := wfList_mem cs hwf _ hc0
    refine ⟨cs0, ?_, wfNode_children _ _ hw0, ?_, hig, hP, hkids⟩
    · have := findNode_of_mem_nodup cs hwf _ hc0
      simpa [nodeName] using this
    · have := wfNode_name _ hw0
      simpa [nodeName] using this

theorem inTree_char (spec : Option Matcher) :
    ∀ (i : PItem) (l : List PItem), InTree i l →
      ∀ (parts : List String) (cs : List FSNode), wfList cs = true →
        l = buildItems spec parts (bSort nameLe (sortFSList cs)) →
        ∀ (n P : String) (kids : List PItem), i = PItem.dirItem n P kids →
        ∃ (q : List String) (cs0 : List FSNode),
          q ≠ [] ∧ chainAt cs q = some cs0 ∧ wfList cs0 = true ∧
          allGoodB q = true ∧
          visibleChain spec parts q = true ∧
          P = joinPosix (parts ++ q) ∧
          kids = buildItems spec (parts ++ q)
            (bSort nameLe (sortFSList cs0)) := by
  intro i l h
  induction h with
  | here hmem =>
    intro parts cs hwf hl n P kids hi
    subst hl
    subst hi
    obtain ⟨cs0, hfind, hw0, hgn, hig, hP, hkids⟩ :=
      buildItems_dir_mem spec parts cs hwf n P kids hmem
    refine ⟨[n], cs0, by simp, ?_, hw0, ?_, ?_, hP, hkids⟩
    · simp [chainAt, hfind]
    · simp [allGoodB, hgn]
    · simp [visibleChain, hig]
  | deeper hmem hsub ih =>
    rename_i n1 p1 kids1 l1
    intro parts cs hwf hl n P kids hi
    subst hl
    obtain ⟨cs0', hfind', hw0', hgn', hig', _, hkids'⟩ :=
      buildItems_dir_mem spec parts cs hwf _ _ _ hmem
    obtain ⟨q', cs0, hq', hchain', hw0, hgood', hvis', hP', hkids''⟩ :=
      ih (parts ++ [n1]) cs0' hw0' hkids' n P kids hi
    refine ⟨n1 :: q', cs0, by simp, ?_, hw0, ?_, ?_, ?_, ?_⟩
    · simp only [chainAt, hfind']
      exact hchain'
    · rw [allGoodB_cons]
      exact ⟨hgn', hgood'⟩
    · simp only [visibleChain, Bool.and_eq_true, Bool.not_eq_true']
      exact ⟨hig', hvis'⟩
    · rw [hP', append_singleton_cons]
    · rw [hkids'', append_singleton_cons]

/-- C4: for every directory item in the nested tree, the flat directory
index holds exactly one entry for its path, and that entry's children list
agrees, as a set of (decorated) paths, with the item's children — the two
structures make the same visibility decisions. -/
theorem tree_directory_agreement (spec : Option Matcher) (fs : List FSNode)
    (n P : String) (kids : List PItem) (hwf : wfList fs = true)
    (hin : InTree (PItem.dirItem n P kids)
      (build_project_structure spec fs)) :
    ∃ e ∈ build_directories_list spec fs,
      e.relative_path = P ++ "/" ∧
      (∀ e' ∈ build_directories_list spec fs,
          e'.relative_path = P ++ "/" → e' = e) ∧
      (∀ s : String, s ∈ e.children ↔ ∃ i ∈ kids, s = itemPathDec i) := by
  obtain ⟨q, cs0, hq, hchain, hw0, hgood, hvis, hP, hkids⟩ :=
    inTree_char spec _ _ hin [] fs hwf rfl n P kids rfl
  rw [List.nil_append] at hP hkids
  have hige : is_ignored q spec = false := by
    have := visibleChain_take spec q [] hvis q.length (by
      cases q with
      | nil => exact absurd rfl hq
      | cons a l => simp) (Nat.le_refl _)
    simpa [List.take_length] using this
  refine ⟨mkDirEntry spec q cs0, ?_, ?_, ?_, ?_⟩
  · unfold build_directories_list
    apply List.mem_append_right
    have := walkChildren_emits spec q fs [] cs0 hq hchain
      (by simpa using hige)
    simpa using this
  · show entryKey q = P ++ "/"
    rw [entryKey_eq q hq, hP]
  · intro e' he' hkey
    rcases directories_char spec fs e' he' with ⟨_, rfl⟩ | ⟨q', cs', hq', rfl, hig', hwfq'⟩
    · exfalso
      have hkey' : "." ++ "/" = joinPosix q ++ "/" := by
        rw [← hP]
        exact hkey
      have := string_append_right_cancel "." (joinPosix q) "/" hkey'
      exact joinPosix_ne_dot q hq hgood this.symm
    · obtain ⟨hgq', hchain', _⟩ := hwfq' hwf
      have hkey2 : entryKey q' = P ++ "/" := hkey
      rw [entryKey_eq q' hq', hP] at hkey2
      have hjoin := string_append_right_cancel _ _ _ hkey2
      have hqq : q' = q := joinPosix_inj q' q hq' hq hgq' hgood hjoin
      subst hqq
      rw [hchain] at hchain'
      have hcs : cs' = cs0 := (Option.some.inj hchain').symm
      rw [hcs]
  · intro s
    show s ∈ entryChildren spec q cs0 ↔ _
    rw [entryChildren_mem, hkids]
    constructor
    · rintro ⟨c, hc, hig, ⟨hdir, rfl⟩ | ⟨hdir, rfl⟩⟩
      · refine ⟨buildItem spec q (sortFS c), ?_, ?_⟩
        · apply (buildItems_mem spec q _ _).mpr
          refine ⟨sortFS c, (mem_sortedChildren cs0 _).mpr ⟨c, hc, rfl⟩, ?_, rfl⟩
          rw [nodeName_sortFS]
          exact hig
        · cases c with
          | file nm => simp [nodeIsDir] at hdir
          | dir nm cs1 => simp [sortFS, buildItem, itemPathDec, nodeName]
      · refine ⟨buildItem spec q (sortFS c), ?_, ?_⟩
        · apply (buildItems_mem spec q _ _).mpr
          refine ⟨sortFS c, (mem_sortedChildren cs0 _).mpr ⟨c, hc, rfl⟩, ?_, rfl⟩
          rw [nodeName_sortFS]
          exact hig
        · cases c with
          | file nm => simp [sortFS, buildItem, itemPathDec, nodeName]
          | dir nm cs1 => simp [nodeIsDir] at hdir
    · rintro ⟨i, hi, rfl⟩
      rcases (buildItems_mem spec q _ _).mp hi with ⟨x, hx, hig, rfl⟩
      rcases (mem_sortedChildren cs0 x).mp hx with ⟨c0, hc0, rfl⟩
      rw [nodeName_sortFS] at hig
      cases c0 with
      | file nm =>
        exact ⟨FSNode.file nm, hc0, hig,
          Or.inr ⟨rfl, by simp [sortFS, buildItem, itemPathDec, nodeName]⟩⟩
      | dir nm cs1 =>
        exact ⟨FSNode.dir nm cs1, hc0, hig,
          Or.inl ⟨rfl, by simp [sortFS, buildItem, itemPathDec, nodeName]⟩⟩

/-- Witness for C4 at a concrete two-level filesystem. -/
theorem tree_directory_agreement_witness :
    ∃ e ∈ build_directories_list none witFS,
      e.relative_path = "src" ++ "/" ∧
      (∀ e' ∈ build_directories_list none witFS,
          e'.relative_path = "src" ++ "/" → e' = e) ∧
      (∀ s : String, s ∈ e.children ↔
        ∃ i ∈ [PItem.fileItem "main.ts" "src/main.ts"], s = itemPathDec i) :=
  tree_directory_agreement none witFS "src" "src"
    [PItem.fileItem "main.ts" "src/main.ts"] (by decide)
    (InTree.here (by
      show PItem.dirItem "src" "src" [PItem.fileItem "main.ts" "src/main.ts"] ∈
        [PItem.fileItem "a.tmp" "a.tmp",
         PItem.dirItem "src" "src" [PItem.fileItem "main.ts" "src/main.ts"]]
      exact List.mem_cons_of_mem _ (List.mem_cons_self _ _)))

end GitAnalysis
